import Mathlib

/-!
Verification of the serdepa binary packet codec (thinnect/serdepa,
src/serdepa/serdepa.py) against its natural-language specification.

The development is a shallow embedding of the scalar / Length / Array /
List / ByteString fragment of the library, the fragment all the claims
under study are about.  Buffers are lists of byte values (`Nat` below
256), machine integers are `Int` with explicit range checks mirroring
`struct.pack` / `struct.unpack`, fallible operations return `Option`
or `Except String` mirroring the exceptions raised by the source.
Python's in-place mutation is modelled by explicit state passing: each
operation returns the updated field registry.
-/

namespace Serdepa

/-- A buffer of bytes, each entry intended to lie below 256. -/
abbrev Bytes := List Nat

/-- Description of one scalar integer codec: bit width, signedness and
endianness.  Mirrors the `BaseInt` subclasses (`nx_uint8`, `uint32`, ...)
whose class attributes are `_length` (bits), `_signed` and a struct
format string whose `>`/`<` prefix carries the endianness. -/
structure IntCodec where
  bits : Nat
  signed : Bool
  big : Bool
deriving DecidableEq, Repr

/-- Source `BaseInt.serialized_size`: `ceil(_length / 8)` bytes. -/
def IntCodec.size (c : IntCodec) : Nat := (c.bits + 7) / 8

/-- Big-endian byte expansion of a natural number into `w` bytes. -/
def natToBytesBE : Nat → Nat → Bytes
  | 0, _ => []
  | w + 1, v => natToBytesBE w (v / 256) ++ [v % 256]

/-- Big-endian value of a byte list. -/
def bytesToNatBE (bs : Bytes) : Nat := bs.foldl (fun a b => a * 256 + b) 0

/-- Smallest value `struct.pack` accepts for the format. -/
def intLo (c : IntCodec) : Int :=
  if c.signed then -((2 ^ (8 * c.size - 1) : Nat) : Int) else 0

/-- One past the largest value `struct.pack` accepts for the format. -/
def intHi (c : IntCodec) : Int :=
  if c.signed then ((2 ^ (8 * c.size - 1) : Nat) : Int)
  else ((2 ^ (8 * c.size) : Nat) : Int)

/-- The unsigned bit pattern of an in-range value (two's complement for
negative values). -/
def toTwosComplement (c : IntCodec) (v : Int) : Nat :=
  (v % ((2 ^ (8 * c.size) : Nat) : Int)).toNat

/-- Source `struct.pack(self._format, self._value)` inside
`BaseInt.serialize`: fails (raises `struct.error`) when the value is out
of range for the format, otherwise produces exactly `size` bytes in the
configured byte order (two's complement for signed values). -/
def encodeInt (c : IntCodec) (v : Int) : Option Bytes :=
  if intLo c ≤ v ∧ v < intHi c then
    some (if c.big then natToBytesBE c.size (toTwosComplement c v)
      else (natToBytesBE c.size (toTwosComplement c v)).reverse)
  else none

/-- Source `struct.unpack` on a full-length slice: recover the signed or
unsigned value of `size` bytes in the configured byte order. -/
def decodeInt (c : IntCodec) (bs : Bytes) : Int :=
  let u : Nat := bytesToNatBE (if c.big then bs else bs.reverse)
  if c.signed ∧ 2 ^ (8 * c.size - 1) ≤ u then
    (u : Int) - ((2 ^ (8 * c.size) : Nat) : Int)
  else (u : Int)

/-- Source `BaseInt.deserialize`: slice `value[pos : pos + size]`, unpack
it (raising `ValueError("Invalid length of data!")` when the slice is
short, which happens exactly when fewer than `size` bytes remain), and
return the advanced position. -/
def deserializeInt (c : IntCodec) (data : Bytes) (pos : Nat) :
    Except String (Int × Nat) :=
  if pos + c.size ≤ data.length then
    .ok (decodeInt c ((data.drop pos).take c.size), pos + c.size)
  else .error "Invalid length of data!"

/-- The big-endian unsigned 8-bit codec `nx_uint8`. -/
def nxu8 : IntCodec := ⟨8, false, true⟩

/-- The big-endian unsigned 16-bit codec `nx_uint16`. -/
def nxu16 : IntCodec := ⟨16, false, true⟩

/-- The big-endian unsigned 32-bit codec `nx_uint32`. -/
def nxu32 : IntCodec := ⟨32, false, true⟩

/-- The big-endian unsigned 64-bit codec `nx_uint64`. -/
def nxu64 : IntCodec := ⟨64, false, true⟩

/-- The big-endian signed 8-bit codec `nx_int8`. -/
def nxi8 : IntCodec := ⟨8, true, true⟩

/-- The little-endian unsigned 8-bit codec `uint8`. -/
def ltu8 : IntCodec := ⟨8, false, false⟩

/-- The little-endian unsigned 32-bit codec `uint32`. -/
def ltu32 : IntCodec := ⟨32, false, false⟩

/-- The element codec of a `ByteString` container (`nx_uint8` in
`ByteString.__init__`). -/
def byteCodec : IntCodec := nxu8

/-- The field-type half of a field object: which codec class the field
was declared with.  `arrF` is `Array(elem, length)`, `listF` is
`List(elem)`, `bytesF` is `ByteString(length?)`, `lenF` is
`Length(codec, target_field_name)`. -/
inductive FieldType where
  | intF (c : IntCodec)
  | lenF (c : IntCodec) (target : String)
  | arrF (elem : IntCodec) (length : Nat)
  | listF (elem : IntCodec)
  | bytesF (length : Option Nat)
deriving DecidableEq, Repr

/-- The runtime value stored by one field object: a scalar value, the
scratch scalar inside a `Length` (`Length._type.value`), or the element
list held by an `Array` / `List` / `ByteString` container. -/
inductive FieldValue where
  | intV (v : Int)
  | lenV (v : Int)
  | elemsV (vs : List Int)
deriving DecidableEq, Repr

/-- One entry of a `_fields_` declaration: name, type and the optional
default value (a 3-tuple in the source carries a default, a 2-tuple
does not). -/
structure FieldSpec where
  name : String
  type : FieldType
  default : Option FieldValue := none
deriving DecidableEq, Repr

/-- The validated per-class field map `_fields` (ordered, name → type and
default). -/
abbrev Fields := List (String × FieldType × Option FieldValue)

/-- The per-class dependency map `_depends` (Length-field name → target
field name), in declaration order. -/
abbrev Depends := List (String × String)

/-- The per-instance `_field_registry`: ordered field objects, each
carrying its type and current value. -/
abbrev Registry := List (String × FieldType × FieldValue)

/-- Insertion into an ordered dictionary: an existing key keeps its
position and gets the new value, a new key is appended. -/
def odInsert (k : String) (v : α) : List (String × α) → List (String × α)
  | [] => [(k, v)]
  | (k', v') :: rest => if k' = k then (k, v) :: rest else (k', v') :: odInsert k v rest

/-- Loop body of `SuperSerdepaPacket.__init__`: walk the declared field
list, reject a `Length` carrying a default, record every field in
`_fields`, record `Length` fields in `_depends`, and reject a `List` or
`ByteString` field that is neither (named as) a target of an
already-recorded `Length` nor equal to the last declared entry. -/
def buildSchemaAux (all : List FieldSpec) :
    List FieldSpec → Fields → Depends → Except String (Fields × Depends)
  | [], fields, dep => .ok (fields, dep)
  | f :: rest, fields, dep =>
    match f.type, f.default with
    | .lenF _ _, some _ => .error "A Length field cannot have a default value"
    | _, _ =>
      let fields1 := odInsert f.name (f.type, f.default) fields
      match f.type with
      | .lenF _ tgt => buildSchemaAux all rest fields1 (odInsert f.name tgt dep)
      | .listF _ =>
        if (dep.map (·.2)).contains f.name ∨ all.getLast? = some f then
          buildSchemaAux all rest fields1 dep
        else .error "Only the last field can have an undefined length"
      | .bytesF _ =>
        if (dep.map (·.2)).contains f.name ∨ all.getLast? = some f then
          buildSchemaAux all rest fields1 dep
        else .error "Only the last field can have an undefined length"
      | _ => buildSchemaAux all rest fields1 dep

/-- Schema validation (`SuperSerdepaPacket.__init__`) over a declared
field list: either the validated `_fields` and `_depends` maps, or the
definition-time error. -/
def buildSchema (specs : List FieldSpec) : Except String (Fields × Depends) :=
  buildSchemaAux specs specs [] []

/-- The value a field object holds right after bare construction
(`_type()`): scalar 0, Length scratch 0, empty containers. -/
def freshValue : FieldType → FieldValue
  | .intF _ => .intV 0
  | .lenF _ _ => .lenV 0
  | .arrF _ _ => .elemsV []
  | .listF _ => .elemsV []
  | .bytesF _ => .elemsV []

/-- Python truthiness of a stored value, used by the `elif default:`
branch of `SerdepaPacket.__init__`. -/
def truthy : FieldValue → Bool
  | .intV v => v ≠ 0
  | .lenV v => v ≠ 0
  | .elemsV vs => vs ≠ []

/-- Applying an `initial=` argument to a freshly copied field object
(`BaseField.__call__` calling `_set_to`). -/
def applyInitial (t : FieldType) (d : FieldValue) : FieldValue :=
  match t, d with
  | .intF _, .intV v => .intV v
  | .arrF _ _, .elemsV vs => .elemsV vs
  | .listF _, .elemsV vs => .elemsV vs
  | .bytesF _, .elemsV vs => .elemsV vs
  | _, _ => freshValue t

/-- Instance construction without keyword arguments
(`SerdepaPacket.__init__`): each field gets its default when that
default is truthy, and a bare field object otherwise. -/
def freshRegistry (fields : Fields) : Registry :=
  fields.map (fun e =>
    (e.1, e.2.1,
      match e.2.2 with
      | some d => if truthy d then applyInitial e.2.1 d else freshValue e.2.1
      | none => freshValue e.2.1))

/-- First registry entry with the given name (`self._field_registry[k]`,
names being unique in practice). -/
def regLookup : Registry → String → Option (FieldType × FieldValue)
  | [], _ => none
  | (n, t, v) :: rest, name => if n = name then some (t, v) else regLookup rest name

/-- First value for a key in an ordered map (`self._depends[name]`). -/
def lookupStr : List (String × String) → String → Option String
  | [], _ => none
  | (k, v) :: rest, name => if k = name then some v else lookupStr rest name

/-- First key of `_depends` whose value is the given field name: the
`for key, value in self._depends.items(): if name == value` scan in
`SerdepaPacket.deserialize`. -/
def findDepend : Depends → String → Option String
  | [], _ => none
  | (k, tgt) :: rest, name => if tgt = name then some k else findDepend rest name

/-- The `.length` attribute of a field object, as read by the packet
engine when serializing a `Length` field: an `Array` reports its
configured length, a `List` its current element count, a `ByteString`
whichever its backing container reports; scalar and `Length` objects
have no such attribute. -/
def targetLength : FieldType → FieldValue → Option Nat
  | .arrF _ n, _ => some n
  | .listF _, .elemsV vs => some vs.length
  | .bytesF (some n), _ => some n
  | .bytesF none, .elemsV vs => some vs.length
  | _, _ => none

/-- Serialization of a list of scalar values in order
(`BaseIterable.serialize` over the values actually emitted). -/
def serializeInts (c : IntCodec) : List Int → Option Bytes
  | [] => some []
  | v :: rest => do pure ((← encodeInt c v) ++ (← serializeInts c rest))

/-- Source `Array.serialize`: when fewer than `length` elements are
present, pad with default-constructed (zero) elements, emit the first
`length` elements, then pop the padding again; when more are present,
emit only the first `length` (after a warning).  Returns the produced
bytes together with the container contents after the call. -/
def arraySerialize (c : IntCodec) (n : Nat) (vs : List Int) :
    Option Bytes × List Int :=
  let working := if vs.length < n then vs ++ List.replicate (n - vs.length) 0 else vs
  (serializeInts c (working.take n),
    if vs.length < n then working.take vs.length else working)

/-- Serialization of a single non-`Length` field object
(`field.serialize()` in `SerdepaPacket.serialize`). -/
def serializeField : FieldType → FieldValue → Option Bytes
  | .intF c, .intV x => encodeInt c x
  | .arrF c n, .elemsV vs => (arraySerialize c n vs).1
  | .listF c, .elemsV vs => serializeInts c vs
  | .bytesF (some n), .elemsV vs => (arraySerialize byteCodec n vs).1
  | .bytesF none, .elemsV vs => serializeInts byteCodec vs
  | _, _ => none

/-- Invocation of `field.serialize(count)` on a field named in
`_depends`: only a `Length` accepts the count argument (any other field
raises a `TypeError`, modelled as `none`). -/
def countChunk (t : FieldType) (cnt : Nat) : Option Bytes :=
  match t with
  | .lenF c _ => encodeInt c ((cnt : Nat) : Int)
  | _ => none

/-- The `self._field_registry[self._depends[name]].length` lookup
followed by `field.serialize(count)`: the target must exist and expose a
`.length` attribute. -/
def depChunk (t : FieldType) (lookup : Option (FieldType × FieldValue)) : Option Bytes :=
  match lookup with
  | some (tt, tv) =>
    match targetLength tt tv with
    | some cnt => countChunk t cnt
    | none => none
  | none => none

/-- The bytes one registry entry contributes to `SerdepaPacket.serialize`:
a field named in `_depends` is a `Length` and is serialized with the
live `.length` of its target looked up in the whole registry; any other
field serializes itself. -/
def fieldChunk (reg : Registry) (dep : Depends) (e : String × FieldType × FieldValue) :
    Option Bytes :=
  match lookupStr dep e.1 with
  | some tgt => depChunk e.2.1 (regLookup reg tgt)
  | none => serializeField e.2.1 e.2.2

/-- Per-field chunks of a registry sweep, all of which must succeed. -/
def chunksOf (reg : Registry) (dep : Depends) : Registry → Option (List Bytes)
  | [] => some []
  | e :: rest => do pure ((← fieldChunk reg dep e) :: (← chunksOf reg dep rest))

/-- The loop of `SerdepaPacket.serialize` over a suffix of the registry,
with the whole registry available for `Length`-target lookups. -/
def serializeGo (reg : Registry) (dep : Depends) : Registry → Option Bytes
  | [] => some []
  | e :: rest => do pure ((← fieldChunk reg dep e) ++ (← serializeGo reg dep rest))

/-- Source `SerdepaPacket.serialize`: concatenate every field's bytes in
declared order (`None` models the exceptions `struct.error` /
`AttributeError` escaping the call). -/
def serializePacket (dep : Depends) (reg : Registry) : Option Bytes :=
  serializeGo reg dep reg

/-- Reading `count` consecutive scalars (`BaseIterable.deserialize` after
the container has been sized to `count`). -/
def deserializeInts (c : IntCodec) : Nat → Bytes → Nat → Except String (List Int × Nat)
  | 0, _, pos => .ok ([], pos)
  | k + 1, data, pos => do
    let (v, pos1) ← deserializeInt c data pos
    let (vs, pos2) ← deserializeInts c k data pos1
    pure (v :: vs, pos2)

/-- Source `List.deserialize` once the engine has supplied a length:
`-1` means consume the remainder (`(len(value) - pos) // element_size`
elements, truncating), any other count clears the list and reads exactly
`max count 0` elements (`range` ignores a negative bound). -/
def listDeserialize (c : IntCodec) (data : Bytes) (pos : Nat) (count : Int) :
    Except String (List Int × Nat) :=
  if count = -1 then deserializeInts c ((data.length - pos) / c.size) data pos
  else deserializeInts c count.toNat data pos

/-- Source `Array.deserialize`: grow the container to `length` elements
with defaults, then overwrite the first `length` elements with freshly
deserialized ones; elements beyond `length` (if any) are kept. -/
def arrayDeserialize (c : IntCodec) (n : Nat) (old : List Int) (data : Bytes)
    (pos : Nat) : Except String (List Int × Nat) :=
  (deserializeInts c n data pos).map (fun p => (p.1 ++ old.drop n, p.2))

/-- Element list held by a container value. -/
def getElems : FieldValue → List Int
  | .elemsV vs => vs
  | _ => []

/-- True for the field objects the trailing-field escape of
`SerdepaPacket.deserialize` accepts: `isinstance(field, List) or
isinstance(field, ByteString)` — note every `ByteString`, fixed-length
or not, satisfies this. -/
def isListLike : FieldType → Bool
  | .listF _ => true
  | .bytesF _ => true
  | _ => false

/-- The `except AttributeError` arm of `SerdepaPacket.deserialize` for a
`List` (or variable `ByteString`) field: find the first `Length` field
targeting it and use that field's already-stored scalar value as the
count, or pass `-1` (consume the remainder) when no `Length` targets
it. -/
def listFieldStep (c : IntCodec) (dep : Depends) (full : Registry) (name : String)
    (data : Bytes) (pos : Nat) : Except String (List Int × Nat) :=
  match findDepend dep name with
  | some key =>
    match regLookup full key with
    | some (_, .lenV x) => listDeserialize c data pos x
    | _ => .error "Unknown length."
  | none => listDeserialize c data pos (-1)

/-- One field's deserialization attempt together with the engine's
`except AttributeError` recovery (`full` is the whole current registry,
used for the `Length`-value lookup). -/
def fieldStep (dep : Depends) (full : Registry) (name : String) (t : FieldType)
    (v : FieldValue) (data : Bytes) (pos : Nat) : Except String (FieldValue × Nat) :=
  match t with
  | .intF c => (deserializeInt c data pos).map (fun p => (.intV p.1, p.2))
  | .lenF c _ => (deserializeInt c data pos).map (fun p => (.lenV p.1, p.2))
  | .arrF c n =>
    (arrayDeserialize c n (getElems v) data pos).map (fun p => (.elemsV p.1, p.2))
  | .bytesF (some n) =>
    (arrayDeserialize byteCodec n (getElems v) data pos).map
      (fun p => (.elemsV p.1, p.2))
  | .listF c =>
    (listFieldStep c dep full name data pos).map (fun p => (.elemsV p.1, p.2))
  | .bytesF none =>
    (listFieldStep byteCodec dep full name data pos).map (fun p => (.elemsV p.1, p.2))

/-- Loop of `SerdepaPacket.deserialize`: `done` holds the already
processed entries (updated in place in the source), `todo` the rest.
For each field: when the position has reached the end of the buffer,
succeed if this is the final field and it is a `List`/`ByteString`
(leaving it untouched), otherwise raise; then deserialize the field,
resolving an unknown length through `_depends`; finally raise if the
position ran past the buffer. -/
def deserializeGo (dep : Depends) (data : Bytes) :
    Registry → Registry → Nat → Except String (Registry × Nat)
  | done, [], pos => .ok (done, pos)
  | done, (name, t, v) :: rest, pos =>
    if data.length ≤ pos then
      if rest = [] ∧ isListLike t then .ok (done ++ [(name, t, v)], pos)
      else .error "Invalid length of data to deserialize."
    else
      match fieldStep dep (done ++ (name, t, v) :: rest) name t v data pos with
      | .error e => .error e
      | .ok (v1, pos1) =>
        if data.length < pos1 then .error "Invalid length of data to deserialize."
        else deserializeGo dep data (done ++ [(name, t, v1)]) rest pos1

/-- Source `SerdepaPacket.deserialize(data, pos)`: run the field loop
from the start of the registry, returning the final registry state and
consumed position. -/
def deserializePacket (dep : Depends) (reg : Registry) (data : Bytes)
    (pos : Nat) : Except String (Registry × Nat) :=
  deserializeGo dep data [] reg pos

/-- Uppercase hexadecimal digit for a value below 16. -/
def hexChar (n : Nat) : Char :=
  if n < 10 then Char.ofNat (48 + n) else Char.ofNat (55 + n)

/-- Accumulating digit expansion for `hexDigits`; the first argument is
fuel that bounds the number of divisions and makes the recursion
structural (any fuel at least the digit count gives the digits). -/
def hexDigitsGo : Nat → Nat → List Char → List Char
  | 0, n, acc => hexChar (n % 16) :: acc
  | fuel + 1, n, acc =>
    if n < 16 then hexChar n :: acc
    else hexDigitsGo fuel (n / 16) (hexChar (n % 16) :: acc)

/-- Uppercase hexadecimal digits of a natural number (at least one
digit; `n` itself is always enough fuel). -/
def hexDigits (n : Nat) : List Char := hexDigitsGo n n []

/-- Python `"{value:0{width}X}".format`: uppercase hexadecimal left
padded with zeros to at least `width` characters. -/
def hexPad (width : Nat) (n : Nat) : String :=
  ⟨List.replicate (width - (hexDigits n).length) '0' ++ hexDigits n⟩

/-- Python `encode(bs, "hex").decode().upper()`: two uppercase
hexadecimal characters per byte. -/
def hexOfBytes (bs : Bytes) : String := String.join (bs.map (hexPad 2))

/-- Source `SerdepaPacket.__str__`: the uppercase hexadecimal encoding of
the serialized packet. -/
def packetStr (dep : Depends) (reg : Registry) : Option String :=
  (serializePacket dep reg).map hexOfBytes

/-- Source `SerdepaPacket.__eq__`: equality of the string renderings,
hence of serialized byte representations. -/
def packetEq (dep : Depends) (p q : Registry) : Prop :=
  packetStr dep p = packetStr dep q

/-- Source `ByteString._value`: `reduce(lambda x, v: x + (v[1] << (8 *
v[0])), enumerate(reversed(list(container))), 0)`, i.e. the first stored
byte is most significant. -/
def byteStringValue (vs : List Int) : Int :=
  (List.enum vs.reverse).foldl (fun x p => x + p.2 * ((2 ^ (8 * p.1) : Nat) : Int)) 0

/-- Source `ByteString.__str__`: the value in uppercase hexadecimal,
zero padded to twice the container's serialized size (its fixed length
for an `Array` backing, its element count for a `List` backing). -/
def byteStringStr (lengthCfg : Option Nat) (vs : List Int) : String :=
  let size := match lengthCfg with
    | some n => n
    | none => vs.length
  hexPad (2 * size) (byteStringValue vs).toNat

/-- True for field objects whose deserialization consumes a number of
bytes fixed by the schema alone: scalars, `Length` fields, fixed
`Array`s and fixed-length `ByteString`s (not a `List`, not a variable
`ByteString`). -/
def rigidType : FieldType → Bool
  | .intF _ => true
  | .lenF _ _ => true
  | .arrF _ _ => true
  | .bytesF (some _) => true
  | _ => false

/-- The fixed byte count consumed by a rigid field (its
`serialized_size`). -/
def rigidSize : FieldType → Nat
  | .intF c => c.size
  | .lenF c _ => c.size
  | .arrF c n => n * c.size
  | .bytesF (some n) => n * byteCodec.size
  | _ => 0

/-- Total fixed byte count of a registry of rigid fields. -/
def sumRigid (reg : Registry) : Nat := (reg.map (fun e => rigidSize e.2.1)).sum

/-! ### Concrete schemas and instances used by individual claims

`oneSpecs` is the `OnePacket` layout of the spec's first example
scenario (and of the repository's test-suite): a big-endian `u8` header,
a big-endian `u32` timestamp, a `u8` Length field targeting `data`, a
variable list `data` of `u8` and a trailing variable list `tail` of
`u8`. -/

def oneSpecs : List FieldSpec := [
  ⟨"header", .intF nxu8, none⟩,
  ⟨"timestamp", .intF nxu32, none⟩,
  ⟨"length", .lenF nxu8 "data", none⟩,
  ⟨"data", .listF nxu8, none⟩,
  ⟨"tail", .listF nxu8, none⟩]

/-- The validated `_fields` map of `oneSpecs`. -/
def oneFields : Fields := [
  ("header", .intF nxu8, none),
  ("timestamp", .intF nxu32, none),
  ("length", .lenF nxu8 "data", none),
  ("data", .listF nxu8, none),
  ("tail", .listF nxu8, none)]

/-- The validated `_depends` map of `oneSpecs`. -/
def oneDep : Depends := [("length", "data")]

/-- The `OnePacket` instance with header 1, timestamp 12345,
data [1, 2, 3, 4] and tail [5, 6]. -/
def oneReg : Registry := [
  ("header", .intF nxu8, .intV 1),
  ("timestamp", .intF nxu32, .intV 12345),
  ("length", .lenF nxu8 "data", .lenV 0),
  ("data", .listF nxu8, .elemsV [1, 2, 3, 4]),
  ("tail", .listF nxu8, .elemsV [5, 6])]

/-- A validated schema with a Length-linked list followed by a trailing
list: a `u8` Length for `d`, the list `d` of `u8`, the trailing list `t`
of `u8`. -/
def shortSpecs : List FieldSpec := [
  ⟨"l", .lenF nxu8 "d", none⟩,
  ⟨"d", .listF nxu8, none⟩,
  ⟨"t", .listF nxu8, none⟩]

/-- The validated `_fields` map of `shortSpecs`. -/
def shortFields : Fields := [
  ("l", .lenF nxu8 "d", none),
  ("d", .listF nxu8, none),
  ("t", .listF nxu8, none)]

/-- The validated `_depends` map of `shortSpecs`. -/
def shortDep : Depends := [("l", "d")]

/-- A validated schema with a scalar header and a trailing variable
list. -/
def tailSpecs : List FieldSpec := [
  ⟨"x", .intF nxu8, none⟩,
  ⟨"t", .listF nxu8, none⟩]

/-- An instance of `tailSpecs` whose trailing list already holds one
element. -/
def tailReg : Registry := [
  ("x", .intF nxu8, .intV 0),
  ("t", .listF nxu8, .elemsV [5])]

/-- The value formula as the specification words it: the big-endian sum
`Σ byte[i] << (8 × (n − 1 − i))` over the stored bytes.  This is the
spec-side rendering, compared against the source-translated
`byteStringValue`. -/
def specByteValue (vs : List Int) : Int :=
  ∑ i ∈ Finset.range vs.length, vs.getD i 0 * ((2 ^ (8 * (vs.length - 1 - i)) : Nat) : Int)

/-- Weighted sum `Σ l[j] * 2^(8 (i + j))`, the running meaning of the
`ByteString._value` fold. -/
def wsum : Nat → List Int → Int
  | _, [] => 0
  | i, b :: rest => b * ((2 ^ (8 * i) : Nat) : Int) + wsum (i + 1) rest

/-- Names targeted by the `Length` entries of a field list, in order. -/
def lenTargets (l : List FieldSpec) : List String :=
  l.filterMap (fun f => match f.type with | .lenF _ tgt => some tgt | _ => none)

/-- The `(length-field-name, target-name)` pairs of a field list, in
order: the contents of `_depends` after processing the list (when names
are distinct). -/
def lenPairs (l : List FieldSpec) : Depends :=
  l.filterMap (fun f => match f.type with | .lenF _ tgt => some (f.name, tgt) | _ => none)

/-- Spec-side acceptance condition for one declared entry, used by the
amended C5 characterization: a `Length` entry carries no default, and a
`List` or `ByteString` entry (fixed-length or not) is either the last
declared entry or named as target by an earlier `Length` entry (whose
targets are `tgts`). -/
def entryOk (all : List FieldSpec) (tgts : List String) (f : FieldSpec) : Prop :=
  (∀ c tgt, f.type = .lenF c tgt → f.default = none) ∧
  (isListLike f.type = true → f.name ∈ tgts ∨ all.getLast? = some f)

/-- Spec-side acceptance of a suffix `rest` of the declared list, the
prefix `pre` having been accepted already. -/
def placementFrom (all pre rest : List FieldSpec) : Prop :=
  ∀ mid g post, rest = mid ++ g :: post → entryOk all (lenTargets (pre ++ mid)) g

/-- Fresh counterpart of a registry: same names and types, every value
freshly constructed (what `deserialize(new_instance(), ...)` starts
from when the schema has no defaults). -/
def freshOf (reg : Registry) : Registry :=
  reg.map (fun e => (e.1, e.2.1, freshValue e.2.1))

/-- Field objects whose `deserialize` signals an unknown length
(`List`, and `ByteString` without a fixed length). -/
def needsLength : FieldType → Bool
  | .listF _ => true
  | .bytesF none => true
  | _ => false

/-- All scalar codecs mentioned by a field type occupy at least one
byte — true of every codec class the library defines. -/
def fieldSizesOk : FieldType → Bool
  | .intF c => c.size != 0
  | .lenF c _ => c.size != 0
  | .arrF c _ => c.size != 0
  | .listF c => c.size != 0
  | .bytesF _ => true

/-- The serialized buffer, cut into the per-field chunks `cs`, is not
exhausted before any non-final field, and is exhausted at the final
field only if that field is a `List`/`ByteString` (the one position
where the engine's early-exit succeeds). -/
def exhaustionOk : List FieldType → List Bytes → Bool
  | [], _ => true
  | [t], cs => isListLike t || !cs.flatten.isEmpty
  | _ :: rest, ch :: cs =>
    (!ch.isEmpty || !cs.flatten.isEmpty) && exhaustionOk rest cs
  | _ :: _, [] => false

/-- Relation between an entry of the serialized registry and the
corresponding entry after deserializing its bytes back: same name and
type, same live length (as consulted by Length links), same
re-serialization, and a deserialized `Length` field stores exactly the
element count its bytes carried. -/
def entrySim (dep : Depends) (origReg : Registry)
    (a b : String × FieldType × FieldValue) : Prop :=
  a.1 = b.1 ∧ a.2.1 = b.2.1 ∧
  targetLength b.2.1 b.2.2 = targetLength a.2.1 a.2.2 ∧
  serializeField b.2.1 b.2.2 = serializeField a.2.1 a.2.2 ∧
  (∀ c tgt, a.2.1 = .lenF c tgt →
    ∃ tgtd tt tv cnt, lookupStr dep a.1 = some tgtd ∧
      regLookup origReg tgtd = some (tt, tv) ∧
      targetLength tt tv = some cnt ∧ b.2.2 = .lenV ((cnt : Nat) : Int))

/-! ### Byte-level lemmas -/

theorem natToBytesBE_length (w v : Nat) : (natToBytesBE w v).length = w := by
  induction w generalizing v with
  | zero => rfl
  | succ w ih => simp [natToBytesBE, ih]

theorem natToBytesBE_lt (w v : Nat) : ∀ b ∈ natToBytesBE w v, b < 256 := by
  induction w generalizing v with
  | zero => intro b hb; simp [natToBytesBE] at hb
  | succ w ih =>
    intro b hb
    simp only [natToBytesBE, List.mem_append, List.mem_singleton] at hb
    rcases hb with hb | hb
    · exact ih _ b hb
    · subst hb; exact Nat.mod_lt _ (by norm_num)

theorem bytesToNatBE_append_one (xs : Bytes) (b : Nat) :
    bytesToNatBE (xs ++ [b]) = bytesToNatBE xs * 256 + b := by
  simp [bytesToNatBE, List.foldl_append]

theorem bytesToNatBE_natToBytesBE (w v : Nat) (h : v < 256 ^ w) :
    bytesToNatBE (natToBytesBE w v) = v := by
  induction w generalizing v with
  | zero => simp [Nat.pow_zero, Nat.lt_one_iff] at h; simp [natToBytesBE, bytesToNatBE, h]
  | succ w ih =>
    have hdiv : v / 256 < 256 ^ w := by
      rw [Nat.div_lt_iff_lt_mul (by norm_num)]
      calc v < 256 ^ (w + 1) := h
        _ = 256 ^ w * 256 := by rw [Nat.pow_succ]
    rw [natToBytesBE, bytesToNatBE_append_one, ih _ hdiv]
    omega

theorem bytesToNatBE_lt (bs : Bytes) (hb : ∀ b ∈ bs, b < 256) :
    bytesToNatBE bs < 256 ^ bs.length := by
  induction bs using List.reverseRecOn with
  | nil => simp [bytesToNatBE]
  | append_singleton xs b ih =>
    rw [bytesToNatBE_append_one]
    have hxs : bytesToNatBE xs < 256 ^ xs.length :=
      ih (fun x hx => hb x (by simp [hx]))
    have hbb : b < 256 := hb b (by simp)
    calc bytesToNatBE xs * 256 + b < (bytesToNatBE xs + 1) * 256 := by omega
      _ ≤ 256 ^ xs.length * 256 := by
          exact Nat.mul_le_mul_right _ hxs
      _ = 256 ^ (xs ++ [b]).length := by
          simp [Nat.pow_succ]

theorem natToBytesBE_bytesToNatBE (bs : Bytes) (hb : ∀ b ∈ bs, b < 256) :
    natToBytesBE bs.length (bytesToNatBE bs) = bs := by
  induction bs using List.reverseRecOn with
  | nil => rfl
  | append_singleton xs b ih =>
    have hbb : b < 256 := hb b (by simp)
    have hlen : (xs ++ [b]).length = xs.length + 1 := by simp
    rw [hlen, bytesToNatBE_append_one, natToBytesBE]
    have hdiv : (bytesToNatBE xs * 256 + b) / 256 = bytesToNatBE xs := by omega
    have hmod : (bytesToNatBE xs * 256 + b) % 256 = b := by omega
    rw [hdiv, hmod, ih (fun x hx => hb x (by simp [hx]))]

/-! ### Scalar codec lemmas -/

theorem pow_eq_256 (s : Nat) : (2 : Nat) ^ (8 * s) = 256 ^ s := by
  rw [pow_mul]; norm_num

theorem encodeInt_length {c : IntCodec} {v : Int} {bs : Bytes}
    (h : encodeInt c v = some bs) : bs.length = c.size := by
  unfold encodeInt at h
  split at h
  · cases h
    split <;> simp [natToBytesBE_length]
  · cases h

theorem encodeInt_bytes_lt {c : IntCodec} {v : Int} {bs : Bytes}
    (h : encodeInt c v = some bs) : ∀ b ∈ bs, b < 256 := by
  unfold encodeInt at h
  split at h
  · cases h
    intro b hb
    split at hb
    · exact natToBytesBE_lt _ _ b hb
    · exact natToBytesBE_lt _ _ b (List.mem_reverse.mp hb)
  · cases h

theorem toTwosComplement_lt (c : IntCodec) (v : Int) :
    toTwosComplement c v < 2 ^ (8 * c.size) := by
  unfold toTwosComplement
  have hMpos : (0 : Int) < ((2 ^ (8 * c.size) : Nat) : Int) := by positivity
  have h1 : v % ((2 ^ (8 * c.size) : Nat) : Int) < ((2 ^ (8 * c.size) : Nat) : Int) :=
    Int.emod_lt_of_pos v hMpos
  omega

theorem int_emod_eq_add_of_neg {v M : Int} (hv : v < 0) (hle : -M ≤ v)
    (_hM : 0 < M) : v % M = v + M := by
  have h1 : (v + M) % M = v % M := by
    rw [show v + M = v + M * 1 by ring, Int.add_mul_emod_self_left]
  have h2 : (v + M) % M = v + M := Int.emod_eq_of_lt (by omega) (by omega)
  omega

theorem decodeInt_encodeInt {c : IntCodec} {v : Int} {bs : Bytes}
    (hs : 1 ≤ c.size) (h : encodeInt c v = some bs) : decodeInt c bs = v := by
  unfold encodeInt at h
  split at h
  case isTrue hrange =>
    injection h with h
    subst h
    have hM2 : (2 : Nat) ^ (8 * c.size) = 2 ^ (8 * c.size - 1) * 2 := by
      rw [← pow_succ, show 8 * c.size - 1 + 1 = 8 * c.size from by omega]
    have hMpos : (0 : Int) < ((2 ^ (8 * c.size) : Nat) : Int) := by positivity
    have hu : ((toTwosComplement c v : Nat) : Int) =
        v % ((2 ^ (8 * c.size) : Nat) : Int) := by
      unfold toTwosComplement
      rw [Int.toNat_of_nonneg (Int.emod_nonneg v (by omega))]
    have hulmt := toTwosComplement_lt c v
    have hraw : (if c.big then
        (if c.big then natToBytesBE c.size (toTwosComplement c v)
          else (natToBytesBE c.size (toTwosComplement c v)).reverse)
        else (if c.big then natToBytesBE c.size (toTwosComplement c v)
          else (natToBytesBE c.size (toTwosComplement c v)).reverse).reverse) =
        natToBytesBE c.size (toTwosComplement c v) := by
      cases c.big <;> simp
    unfold decodeInt
    rw [hraw, bytesToNatBE_natToBytesBE _ _ (by rw [← pow_eq_256]; exact hulmt)]
    cases hsig : c.signed with
    | false =>
      rw [intLo, intHi, if_neg (by simp [hsig]), if_neg (by simp [hsig])] at hrange
      rw [if_neg (by simp [hsig]), hu,
        Int.emod_eq_of_lt hrange.1 hrange.2]
    | true =>
      rw [intLo, intHi, if_pos (by simp [hsig]), if_pos (by simp [hsig])] at hrange
      obtain ⟨hlo, hhi⟩ := hrange
      rcases le_or_lt 0 v with hv0 | hv0
      · have hvM : v % ((2 ^ (8 * c.size) : Nat) : Int) = v := by
          refine Int.emod_eq_of_lt hv0 ?_
          calc v < ((2 ^ (8 * c.size - 1) : Nat) : Int) := hhi
            _ ≤ ((2 ^ (8 * c.size) : Nat) : Int) := by
                have hle : (2 ^ (8 * c.size - 1) : Nat) ≤ 2 ^ (8 * c.size) := by omega
                exact_mod_cast hle
        have hult : toTwosComplement c v < 2 ^ (8 * c.size - 1) := by
          have : ((toTwosComplement c v : Nat) : Int) <
              ((2 ^ (8 * c.size - 1) : Nat) : Int) := by rw [hu, hvM]; exact hhi
          exact_mod_cast this
        rw [if_neg (by simp [hsig]; omega), hu, hvM]
      · have hvM : v % ((2 ^ (8 * c.size) : Nat) : Int) =
            v + ((2 ^ (8 * c.size) : Nat) : Int) := by
          refine int_emod_eq_add_of_neg hv0 ?_ hMpos
          calc -((2 ^ (8 * c.size) : Nat) : Int)
              ≤ -((2 ^ (8 * c.size - 1) : Nat) : Int) := by
                have hle : (2 ^ (8 * c.size - 1) : Nat) ≤ 2 ^ (8 * c.size) := by omega
                have hle2 : ((2 ^ (8 * c.size - 1) : Nat) : Int) ≤
                    ((2 ^ (8 * c.size) : Nat) : Int) := by exact_mod_cast hle
                omega
            _ ≤ v := hlo
        have hule : 2 ^ (8 * c.size - 1) ≤ toTwosComplement c v := by
          have hc : ((2 ^ (8 * c.size) : Nat) : Int) =
              ((2 ^ (8 * c.size - 1) : Nat) : Int) * 2 := by exact_mod_cast hM2
          have : ((2 ^ (8 * c.size - 1) : Nat) : Int) ≤
              ((toTwosComplement c v : Nat) : Int) := by
            rw [hu, hvM]; omega
          exact_mod_cast this
        rw [if_pos (by simp [hsig]; omega), hu, hvM]
        ring
  case isFalse => cases h

theorem encodeInt_decodeInt {c : IntCodec} {bs : Bytes} (hs : 1 ≤ c.size)
    (hlen : bs.length = c.size) (hb : ∀ b ∈ bs, b < 256) :
    encodeInt c (decodeInt c bs) = some bs := by
  have hM2 : (2 : Nat) ^ (8 * c.size) = 2 ^ (8 * c.size - 1) * 2 := by
    rw [← pow_succ, show 8 * c.size - 1 + 1 = 8 * c.size from by omega]
  have hMpos : (0 : Int) < ((2 ^ (8 * c.size) : Nat) : Int) := by positivity
  set raw : Bytes := if c.big then bs else bs.reverse with hrawdef
  have hrawlen : raw.length = c.size := by
    rw [hrawdef]; cases c.big <;> simp [hlen]
  have hrawb : ∀ b ∈ raw, b < 256 := by
    rw [hrawdef]; cases c.big <;> simp <;> exact fun b hbb => hb b hbb
  have hult : bytesToNatBE raw < 2 ^ (8 * c.size) := by
    rw [pow_eq_256, ← hrawlen]
    exact bytesToNatBE_lt raw hrawb
  have hultI : ((bytesToNatBE raw : Nat) : Int) < ((2 ^ (8 * c.size) : Nat) : Int) := by
    exact_mod_cast hult
  have hraws : natToBytesBE c.size (bytesToNatBE raw) = raw := by
    rw [← hrawlen]; exact natToBytesBE_bytesToNatBE raw hrawb
  have hout : ∀ u : Nat, natToBytesBE c.size u = raw →
      (if c.big then natToBytesBE c.size u else (natToBytesBE c.size u).reverse) = bs := by
    intro u hu
    rw [hu, hrawdef]
    cases c.big <;> simp
  have hdec : decodeInt c bs =
      (if c.signed ∧ 2 ^ (8 * c.size - 1) ≤ bytesToNatBE raw then
        ((bytesToNatBE raw : Nat) : Int) - ((2 ^ (8 * c.size) : Nat) : Int)
      else ((bytesToNatBE raw : Nat) : Int)) := by
    rw [decodeInt, hrawdef]
  rw [hdec]
  cases hsig : c.signed with
  | false =>
    rw [if_neg (by simp [hsig])]
    rw [encodeInt, if_pos ?hrange]
    case hrange =>
      constructor
      · rw [intLo, if_neg (by simp [hsig])]; positivity
      · rw [intHi, if_neg (by simp [hsig])]; exact hultI
    have htc : toTwosComplement c ((bytesToNatBE raw : Nat) : Int) = bytesToNatBE raw := by
      unfold toTwosComplement
      rw [Int.emod_eq_of_lt (by positivity) hultI]
      simp
    rw [htc, hout _ hraws]
  | true =>
    have hc : ((2 ^ (8 * c.size) : Nat) : Int) =
        ((2 ^ (8 * c.size - 1) : Nat) : Int) * 2 := by exact_mod_cast hM2
    rcases le_or_lt (2 ^ (8 * c.size - 1)) (bytesToNatBE raw) with hcase | hcase
    · rw [if_pos (by exact ⟨by simp [hsig], hcase⟩)]
      have hcaseI : ((2 ^ (8 * c.size - 1) : Nat) : Int) ≤
          ((bytesToNatBE raw : Nat) : Int) := by exact_mod_cast hcase
      rw [encodeInt, if_pos ?hrange2]
      case hrange2 =>
        constructor
        · rw [intLo, if_pos (by simp [hsig])]; omega
        · rw [intHi, if_pos (by simp [hsig])]; omega
      have htc : toTwosComplement c
          (((bytesToNatBE raw : Nat) : Int) - ((2 ^ (8 * c.size) : Nat) : Int)) =
          bytesToNatBE raw := by
        unfold toTwosComplement
        rw [int_emod_eq_add_of_neg (by omega) (by omega) hMpos]
        omega
      rw [htc, hout _ hraws]
    · rw [if_neg (by simp [hsig]; omega)]
      have hcaseI : ((bytesToNatBE raw : Nat) : Int) <
          ((2 ^ (8 * c.size - 1) : Nat) : Int) := by exact_mod_cast hcase
      rw [encodeInt, if_pos ?hrange3]
      case hrange3 =>
        constructor
        · rw [intLo, if_pos (by simp [hsig])]; omega
        · rw [intHi, if_pos (by simp [hsig])]; exact hcaseI
      have htc : toTwosComplement c ((bytesToNatBE raw : Nat) : Int) = bytesToNatBE raw := by
        unfold toTwosComplement
        rw [Int.emod_eq_of_lt (by positivity) hultI]
        simp
      rw [htc, hout _ hraws]

/-! ### Buffer lemmas for sequences of scalars -/

theorem except_bind_ok {α β : Type} (x : α) (f : α → Except String β) :
    (Except.ok x : Except String α) >>= f = f x := rfl

theorem drop_of_drop_append {data chunk post : Bytes} {pos : Nat}
    (hdrop : data.drop pos = chunk ++ post) :
    data.drop (pos + chunk.length) = post := by
  rw [← List.drop_drop, hdrop, List.drop_left]

theorem length_of_drop_append {data chunk post : Bytes} {pos : Nat}
    (_hpos : pos ≤ data.length) (hdrop : data.drop pos = chunk ++ post) :
    data.length - pos = chunk.length + post.length := by
  have h := List.length_drop pos data
  rw [hdrop] at h
  simp at h
  omega

theorem deserializeInt_at {c : IntCodec} {v : Int} {chunk : Bytes}
    {data post : Bytes} {pos : Nat} (hs : 1 ≤ c.size)
    (henc : encodeInt c v = some chunk) (hpos : pos ≤ data.length)
    (hdrop : data.drop pos = chunk ++ post) :
    deserializeInt c data pos = .ok (v, pos + c.size) := by
  have hclen : chunk.length = c.size := encodeInt_length henc
  have hlen := length_of_drop_append hpos hdrop
  have hle : pos + c.size ≤ data.length := by omega
  have htake : (chunk ++ post).take c.size = chunk := by
    rw [← hclen]; exact List.take_left chunk post
  unfold deserializeInt
  rw [if_pos hle, hdrop, htake, decodeInt_encodeInt hs henc]

theorem serializeInts_length {c : IntCodec} {vs : List Int} {bs : Bytes}
    (h : serializeInts c vs = some bs) : bs.length = vs.length * c.size := by
  induction vs generalizing bs with
  | nil =>
    rw [serializeInts] at h
    injection h with h
    subst h
    simp
  | cons v rest ih =>
    rw [serializeInts] at h
    cases henc : encodeInt c v with
    | none => rw [henc] at h; simp at h
    | some ch =>
      rw [henc] at h
      cases hrest : serializeInts c rest with
      | none => rw [hrest] at h; simp at h
      | some bsr =>
        rw [hrest] at h
        simp at h
        subst h
        have := encodeInt_length henc
        have := ih hrest
        have h3 : (rest.length + 1) * c.size = rest.length * c.size + c.size := by ring
        simp [List.length_append]
        omega

theorem deserializeInts_of_serializeInts {c : IntCodec} {vs : List Int}
    {bs : Bytes} {data post : Bytes} {pos : Nat} (hs : 1 ≤ c.size)
    (h : serializeInts c vs = some bs) (hpos : pos ≤ data.length)
    (hdrop : data.drop pos = bs ++ post) :
    deserializeInts c vs.length data pos = .ok (vs, pos + bs.length) := by
  induction vs generalizing bs pos with
  | nil =>
    rw [serializeInts] at h
    injection h with h
    subst h
    simp [deserializeInts]
  | cons v rest ih =>
    rw [serializeInts] at h
    cases henc : encodeInt c v with
    | none => rw [henc] at h; simp at h
    | some ch =>
      rw [henc] at h
      cases hrest : serializeInts c rest with
      | none => rw [hrest] at h; simp at h
      | some bsr =>
        rw [hrest] at h
        simp at h
        subst h
        have hclen : ch.length = c.size := encodeInt_length henc
        have hdrop2 : data.drop pos = ch ++ (bsr ++ post) := by
          rw [hdrop, List.append_assoc]
        have hlen := length_of_drop_append hpos hdrop2
        have hstep := deserializeInt_at hs henc hpos hdrop2
        have hpos2 : pos + c.size ≤ data.length := by
          have hl2 : (ch ++ (bsr ++ post)).length = ch.length + (bsr ++ post).length :=
            List.length_append _ _
          omega
        have hdrop3 : data.drop (pos + c.size) = bsr ++ post := by
          rw [← hclen]; exact drop_of_drop_append hdrop2
        have hrec := ih hrest hpos2 hdrop3
        show (do
          let p1 ← deserializeInt c data pos
          let p2 ← deserializeInts c rest.length data p1.2
          pure (p1.1 :: p2.1, p2.2) : Except String (List Int × Nat)) = _
        rw [hstep]
        simp only [except_bind_ok]
        rw [hrec]
        simp only [except_bind_ok]
        have hlen2 : pos + c.size + bsr.length = pos + (ch ++ bsr).length := by
          have := List.length_append ch bsr
          omega
        rw [hlen2]
        rfl

theorem deserializeInts_ok_of_le {c : IntCodec} {k : Nat} {data : Bytes} {pos : Nat}
    (h : pos + k * c.size ≤ data.length) :
    ∃ vs : List Int, deserializeInts c k data pos = .ok (vs, pos + k * c.size) ∧
      vs.length = k := by
  induction k generalizing pos with
  | zero => exact ⟨[], by simp [deserializeInts], rfl⟩
  | succ k ih =>
    have hle : pos + c.size ≤ data.length := by
      have : c.size ≤ (k + 1) * c.size := by
        calc c.size = 1 * c.size := (one_mul _).symm
          _ ≤ (k + 1) * c.size := Nat.mul_le_mul_right _ (by omega)
      omega
    have hstep : deserializeInt c data pos =
        .ok (decodeInt c ((data.drop pos).take c.size), pos + c.size) := by
      unfold deserializeInt
      rw [if_pos hle]
    have hrec : pos + c.size + k * c.size ≤ data.length := by
      have : (k + 1) * c.size = c.size + k * c.size := by ring
      omega
    obtain ⟨vs, hvs, hvslen⟩ := ih hrec
    refine ⟨decodeInt c ((data.drop pos).take c.size) :: vs, ?_, by simp [hvslen]⟩
    show (do
      let p1 ← deserializeInt c data pos
      let p2 ← deserializeInts c k data p1.2
      pure (p1.1 :: p2.1, p2.2) : Except String (List Int × Nat)) = _
    rw [hstep]
    simp only [except_bind_ok]
    rw [hvs]
    simp only [except_bind_ok]
    have harith : pos + c.size + k * c.size = pos + (k + 1) * c.size := by
      have : (k + 1) * c.size = c.size + k * c.size := by ring
      omega
    rw [harith]
    rfl

theorem deserializeInts_error_of_lt {c : IntCodec} {k : Nat} {data : Bytes} {pos : Nat}
    (hpos : pos ≤ data.length) (h : data.length < pos + k * c.size) :
    ∃ e, deserializeInts c k data pos = .error e := by
  induction k generalizing pos with
  | zero => simp at h; omega
  | succ k ih =>
    by_cases hle : pos + c.size ≤ data.length
    · have hstep : deserializeInt c data pos =
          .ok (decodeInt c ((data.drop pos).take c.size), pos + c.size) := by
        unfold deserializeInt
        rw [if_pos hle]
      have hrec : data.length < pos + c.size + k * c.size := by
        have : (k + 1) * c.size = c.size + k * c.size := by ring
        omega
      obtain ⟨e, he⟩ := ih hle hrec
      refine ⟨e, ?_⟩
      show (do
        let p1 ← deserializeInt c data pos
        let p2 ← deserializeInts c k data p1.2
        pure (p1.1 :: p2.1, p2.2) : Except String (List Int × Nat)) = _
      rw [hstep]
      simp only [except_bind_ok]
      rw [he]
      rfl
    · refine ⟨"Invalid length of data!", ?_⟩
      have hstep : deserializeInt c data pos = .error "Invalid length of data!" := by
        unfold deserializeInt
        rw [if_neg hle]
      show (do
        let p1 ← deserializeInt c data pos
        let p2 ← deserializeInts c k data p1.2
        pure (p1.1 :: p2.1, p2.2) : Except String (List Int × Nat)) = _
      rw [hstep]
      rfl

theorem deserializeInts_byte {n : Nat} {data : Bytes} {pos : Nat}
    (h : pos + n ≤ data.length) :
    deserializeInts byteCodec n data pos =
      .ok (((data.drop pos).take n).map (fun b : Nat => (b : Int)), pos + n) := by
  induction n generalizing pos with
  | zero => simp [deserializeInts]
  | succ n ih =>
    have hsz : byteCodec.size = 1 := rfl
    have hle : pos + byteCodec.size ≤ data.length := by rw [hsz]; omega
    have hlendrop : (data.drop pos).length = data.length - pos := List.length_drop pos data
    cases hL : data.drop pos with
    | nil => rw [hL] at hlendrop; simp at hlendrop; omega
    | cons b L =>
      have hstep : deserializeInt byteCodec data pos = .ok ((b : Int), pos + 1) := by
        unfold deserializeInt
        rw [if_pos hle, hL, hsz]
        have : ((b :: L).take 1 : Bytes) = [b] := rfl
        rw [this]
        have hdec : decodeInt byteCodec [b] = (b : Int) := by
          unfold decodeInt
          simp [byteCodec, nxu8, bytesToNatBE, IntCodec.size]
        rw [hdec]
      have hdrop2 : data.drop (pos + 1) = L := by
        have := @drop_of_drop_append data [b] L pos (by simpa using hL)
        simpa using this
      have hrec := @ih (pos + 1) (by omega)
      rw [hdrop2] at hrec
      show (do
        let p1 ← deserializeInt byteCodec data pos
        let p2 ← deserializeInts byteCodec n data p1.2
        pure (p1.1 :: p2.1, p2.2) : Except String (List Int × Nat)) = _
      rw [hstep]
      simp only [except_bind_ok]
      rw [hrec]
      simp only [except_bind_ok]
      have harith : pos + 1 + n = pos + (n + 1) := by omega
      rw [harith]
      rfl

theorem serializeInts_append {c : IntCodec} {a b : List Int} {bsa bsb : Bytes}
    (ha : serializeInts c a = some bsa) (hb : serializeInts c b = some bsb) :
    serializeInts c (a ++ b) = some (bsa ++ bsb) := by
  induction a generalizing bsa with
  | nil =>
    rw [serializeInts] at ha
    injection ha with ha
    subst ha
    simpa using hb
  | cons v rest ih =>
    rw [serializeInts] at ha
    cases henc : encodeInt c v with
    | none => rw [henc] at ha; simp at ha
    | some ch =>
      rw [henc] at ha
      cases hrest : serializeInts c rest with
      | none => rw [hrest] at ha; simp at ha
      | some bsr =>
        rw [hrest] at ha
        simp at ha
        subst ha
        have := ih hrest
        show (do pure ((← encodeInt c v) ++ (← serializeInts c (rest ++ b)))
          : Option Bytes) = _
        rw [henc, this]
        simp

theorem serializeInts_replicate_zero {c : IntCodec} {z : Bytes} (m : Nat)
    (hz : encodeInt c 0 = some z) :
    serializeInts c (List.replicate m 0) = some (List.replicate m z).flatten := by
  induction m with
  | zero => rfl
  | succ m ih =>
    rw [List.replicate_succ, serializeInts, hz, ih]
    simp [List.replicate_succ]

theorem foldl_weight_enumFrom (l : List Int) :
    ∀ (i : Nat) (x : Int),
      (List.enumFrom i l).foldl
        (fun a p => a + p.2 * ((2 ^ (8 * p.1) : Nat) : Int)) x = x + wsum i l := by
  induction l with
  | nil => intro i x; simp [wsum]
  | cons b rest ih =>
    intro i x
    show (List.enumFrom (i + 1) rest).foldl _ (x + b * ((2 ^ (8 * i) : Nat) : Int)) = _
    rw [ih (i + 1) (x + b * ((2 ^ (8 * i) : Nat) : Int)), wsum]
    ring

theorem byteStringValue_eq_wsum (vs : List Int) :
    byteStringValue vs = wsum 0 vs.reverse := by
  unfold byteStringValue
  rw [show List.enum vs.reverse = List.enumFrom 0 vs.reverse from rfl,
    foldl_weight_enumFrom]
  ring

theorem wsum_append (l : List Int) :
    ∀ (i : Nat) (b : Int),
      wsum i (l ++ [b]) = wsum i l + b * ((2 ^ (8 * (i + l.length)) : Nat) : Int) := by
  induction l with
  | nil => intro i b; simp [wsum]
  | cons v rest ih =>
    intro i b
    show wsum i (v :: (rest ++ [b])) = _
    rw [wsum, ih (i + 1) b, wsum]
    have hp : 8 * (i + 1 + rest.length) = 8 * (i + (v :: rest).length) := by
      simp [List.length_cons]
      omega
    rw [hp]
    ring

theorem byteStringValue_cons (v : Int) (vs : List Int) :
    byteStringValue (v :: vs) =
      v * ((2 ^ (8 * vs.length) : Nat) : Int) + byteStringValue vs := by
  rw [byteStringValue_eq_wsum, byteStringValue_eq_wsum, List.reverse_cons,
    wsum_append]
  simp [List.length_reverse]
  ring

theorem specByteValue_cons (v : Int) (vs : List Int) :
    specByteValue (v :: vs) =
      v * ((2 ^ (8 * vs.length) : Nat) : Int) + specByteValue vs := by
  unfold specByteValue
  rw [show (v :: vs).length = vs.length + 1 from rfl, Finset.sum_range_succ']
  have hcong : ∀ i ∈ Finset.range vs.length,
      (v :: vs).getD (i + 1) 0 *
        ((2 ^ (8 * (vs.length + 1 - 1 - (i + 1))) : Nat) : Int) =
      vs.getD i 0 * ((2 ^ (8 * (vs.length - 1 - i)) : Nat) : Int) := by
    intro i hi
    have : vs.length + 1 - 1 - (i + 1) = vs.length - 1 - i := by omega
    rw [this]
    rfl
  rw [Finset.sum_congr rfl hcong]
  have : vs.length + 1 - 1 - 0 = vs.length := by omega
  rw [this]
  simp [List.getD]
  ring

theorem byteStringValue_eq_spec (vs : List Int) :
    byteStringValue vs = specByteValue vs := by
  induction vs with
  | nil => simp [byteStringValue, specByteValue]
  | cons v rest ih => rw [byteStringValue_cons, specByteValue_cons, ih]

theorem byteStringValue_bound (vs : List Int)
    (h : ∀ b ∈ vs, 0 ≤ b ∧ b < 256) :
    0 ≤ byteStringValue vs ∧
      byteStringValue vs < ((2 ^ (8 * vs.length) : Nat) : Int) := by
  induction vs with
  | nil => simp [byteStringValue]
  | cons v rest ih =>
    obtain ⟨hrec0, hreclt⟩ := ih (fun b hb => h b (by simp [hb]))
    obtain ⟨hv0, hvlt⟩ := h v (by simp)
    rw [byteStringValue_cons]
    have hpow : ((2 ^ (8 * (v :: rest).length) : Nat) : Int) =
        256 * ((2 ^ (8 * rest.length) : Nat) : Int) := by
      have : (2 : Nat) ^ (8 * (rest.length + 1)) = 256 * 2 ^ (8 * rest.length) := by
        rw [show 8 * (rest.length + 1) = 8 * rest.length + 8 from by ring, pow_add]
        ring
      rw [show (v :: rest).length = rest.length + 1 from rfl]
      exact_mod_cast this
    have hApos : (0 : Int) ≤ ((2 ^ (8 * rest.length) : Nat) : Int) := by positivity
    have hmul : v * ((2 ^ (8 * rest.length) : Nat) : Int) ≤
        255 * ((2 ^ (8 * rest.length) : Nat) : Int) :=
      mul_le_mul_of_nonneg_right (by omega) hApos
    have hmul0 : 0 ≤ v * ((2 ^ (8 * rest.length) : Nat) : Int) :=
      mul_nonneg hv0 hApos
    rw [hpow]
    omega

theorem hexDigitsGo_length_le :
    ∀ (fuel n : Nat) (acc : List Char) (k : Nat), 1 ≤ k → n < 16 ^ k →
      (hexDigitsGo fuel n acc).length ≤ k + acc.length := by
  intro fuel
  induction fuel with
  | zero =>
    intro n acc k hk _
    show (hexChar (n % 16) :: acc).length ≤ k + acc.length
    simp
    omega
  | succ fuel ih =>
    intro n acc k hk hn
    show (if n < 16 then hexChar n :: acc
      else hexDigitsGo fuel (n / 16) (hexChar (n % 16) :: acc)).length ≤ k + acc.length
    split
    · simp; omega
    case isFalse h16 =>
      have hk2 : 2 ≤ k := by
        by_contra hcon
        have : k = 1 := by omega
        subst this
        simp at hn
        omega
      have hdiv : n / 16 < 16 ^ (k - 1) := by
        rw [Nat.div_lt_iff_lt_mul (by norm_num)]
        calc n < 16 ^ k := hn
          _ = 16 ^ (k - 1) * 16 := by
              rw [← pow_succ, show k - 1 + 1 = k from by omega]
      have := ih (n / 16) (hexChar (n % 16) :: acc) (k - 1) (by omega) hdiv
      simp at this
      omega

theorem hexPad_length {w n : Nat} (h : (hexDigits n).length ≤ w) :
    (hexPad w n).length = w := by
  show (List.replicate (w - (hexDigits n).length) '0' ++ hexDigits n).length = w
  simp
  omega

theorem hexDigits_length_le {n k : Nat} (hk : 1 ≤ k) (h : n < 16 ^ k) :
    (hexDigits n).length ≤ k := by
  have := hexDigitsGo_length_le n n [] k hk h
  simpa [hexDigits] using this

theorem serializeGo_cons (reg : Registry) (dep : Depends)
    (e : String × FieldType × FieldValue) (rest : Registry) :
    serializeGo reg dep (e :: rest) =
      (fieldChunk reg dep e).bind
        (fun ch => (serializeGo reg dep rest).map (fun r => ch ++ r)) := by
  show (do pure ((← fieldChunk reg dep e) ++
    (← serializeGo reg dep rest)) : Option Bytes) = _
  cases fieldChunk reg dep e <;> cases serializeGo reg dep rest <;> rfl

theorem serializeGo_append (reg : Registry) (dep : Depends) (a b : Registry) :
    serializeGo reg dep (a ++ b) =
      (serializeGo reg dep a).bind
        (fun x => (serializeGo reg dep b).map (fun y => x ++ y)) := by
  induction a with
  | nil =>
    rw [List.nil_append]
    show _ = (some []).bind _
    cases serializeGo reg dep b <;> rfl
  | cons e rest ih =>
    rw [List.cons_append, serializeGo_cons, serializeGo_cons, ih]
    cases fieldChunk reg dep e <;>
      cases serializeGo reg dep rest <;>
      cases serializeGo reg dep b <;>
      simp [List.append_assoc]

theorem fieldStep_rigid_ok {t : FieldType} (dep : Depends) (full : Registry)
    (name : String) (v : FieldValue) {data : Bytes} {pos : Nat}
    (hr : rigidType t = true) (hle : pos + rigidSize t ≤ data.length) :
    ∃ v1, fieldStep dep full name t v data pos = .ok (v1, pos + rigidSize t) := by
  cases t with
  | intF c =>
    simp only [rigidSize] at hle ⊢
    refine ⟨.intV (decodeInt c ((data.drop pos).take c.size)), ?_⟩
    show (deserializeInt c data pos).map (fun p => (FieldValue.intV p.1, p.2)) = _
    unfold deserializeInt
    rw [if_pos hle]
    rfl
  | lenF c tgt =>
    simp only [rigidSize] at hle ⊢
    refine ⟨.lenV (decodeInt c ((data.drop pos).take c.size)), ?_⟩
    show (deserializeInt c data pos).map (fun p => (FieldValue.lenV p.1, p.2)) = _
    unfold deserializeInt
    rw [if_pos hle]
    rfl
  | arrF c n =>
    simp only [rigidSize] at hle ⊢
    obtain ⟨vs, hvs, _⟩ := @deserializeInts_ok_of_le c n data pos hle
    refine ⟨.elemsV (vs ++ (getElems v).drop n), ?_⟩
    show ((deserializeInts c n data pos).map
      (fun p => (p.1 ++ (getElems v).drop n, p.2))).map
      (fun p => (FieldValue.elemsV p.1, p.2)) = _
    rw [hvs]
    rfl
  | listF c => simp [rigidType] at hr
  | bytesF o =>
    cases o with
    | some n =>
      simp only [rigidSize] at hle ⊢
      obtain ⟨vs, hvs, _⟩ := @deserializeInts_ok_of_le byteCodec n data pos hle
      refine ⟨.elemsV (vs ++ (getElems v).drop n), ?_⟩
      show ((deserializeInts byteCodec n data pos).map
        (fun p => (p.1 ++ (getElems v).drop n, p.2))).map
        (fun p => (FieldValue.elemsV p.1, p.2)) = _
      rw [hvs]
      rfl
    | none => simp [rigidType] at hr

theorem fieldStep_rigid_error {t : FieldType} (dep : Depends) (full : Registry)
    (name : String) (v : FieldValue) {data : Bytes} {pos : Nat}
    (hr : rigidType t = true) (hpos : pos ≤ data.length)
    (hgt : data.length < pos + rigidSize t) :
    ∃ e, fieldStep dep full name t v data pos = .error e := by
  cases t with
  | intF c =>
    simp only [rigidSize] at hgt
    refine ⟨"Invalid length of data!", ?_⟩
    show (deserializeInt c data pos).map (fun p => (FieldValue.intV p.1, p.2)) = _
    unfold deserializeInt
    rw [if_neg (by omega)]
    rfl
  | lenF c tgt =>
    simp only [rigidSize] at hgt
    refine ⟨"Invalid length of data!", ?_⟩
    show (deserializeInt c data pos).map (fun p => (FieldValue.lenV p.1, p.2)) = _
    unfold deserializeInt
    rw [if_neg (by omega)]
    rfl
  | arrF c n =>
    simp only [rigidSize] at hgt
    obtain ⟨e, he⟩ := @deserializeInts_error_of_lt c n data pos hpos hgt
    refine ⟨e, ?_⟩
    show ((deserializeInts c n data pos).map
      (fun p => (p.1 ++ (getElems v).drop n, p.2))).map
      (fun p => (FieldValue.elemsV p.1, p.2)) = _
    rw [he]
    rfl
  | listF c => simp [rigidType] at hr
  | bytesF o =>
    cases o with
    | some n =>
      simp only [rigidSize] at hgt
      obtain ⟨e, he⟩ := @deserializeInts_error_of_lt byteCodec n data pos hpos hgt
      refine ⟨e, ?_⟩
      show ((deserializeInts byteCodec n data pos).map
        (fun p => (p.1 ++ (getElems v).drop n, p.2))).map
        (fun p => (FieldValue.elemsV p.1, p.2)) = _
      rw [he]
      rfl
    | none => simp [rigidType] at hr

theorem deserializeGo_rigid_ok (dep : Depends) (data : Bytes) :
    ∀ (todo done : Registry) (pos : Nat),
      (∀ e ∈ todo, rigidType e.2.1 = true) →
      pos + sumRigid todo < data.length →
      ∃ reg1, deserializeGo dep data done todo pos = .ok (reg1, pos + sumRigid todo) := by
  intro todo
  induction todo with
  | nil =>
    intro done pos _ _
    exact ⟨done, by simp [deserializeGo, sumRigid]⟩
  | cons x rest ih =>
    obtain ⟨name, t, v⟩ := x
    intro done pos hr hlt
    have hsum : sumRigid ((name, t, v) :: rest) = rigidSize t + sumRigid rest := by
      simp [sumRigid]
    have hrt : rigidType t = true := hr (name, t, v) (List.mem_cons_self _ _)
    have hrest : ∀ e ∈ rest, rigidType e.2.1 = true := fun e he => hr e (by simp [he])
    obtain ⟨v1, hv1⟩ := @fieldStep_rigid_ok t dep
      (done ++ (name, t, v) :: rest) name v data pos hrt (by omega)
    obtain ⟨reg1, hreg1⟩ := ih (done ++ [(name, t, v1)]) (pos + rigidSize t) hrest
      (by omega)
    refine ⟨reg1, ?_⟩
    unfold deserializeGo
    rw [if_neg (by omega)]
    simp only [hv1]
    rw [if_neg (by omega), hreg1]
    have : pos + rigidSize t + sumRigid rest = pos + sumRigid ((name, t, v) :: rest) := by
      omega
    rw [this]

theorem deserializeGo_rigid_error (dep : Depends) (data : Bytes) :
    ∀ (todo done : Registry) (pos : Nat),
      (∀ e ∈ todo, rigidType e.2.1 = true) →
      pos ≤ data.length →
      data.length < pos + sumRigid todo.dropLast →
      ∃ e, deserializeGo dep data done todo pos = .error e := by
  intro todo
  induction todo with
  | nil =>
    intro done pos _ hpos hlt
    simp [sumRigid] at hlt
    omega
  | cons x rest ih =>
    obtain ⟨name, t, v⟩ := x
    intro done pos hr hpos hlt
    by_cases hre : rest = []
    · subst hre
      simp [sumRigid] at hlt
      omega
    · rw [List.dropLast_cons_of_ne_nil hre] at hlt
      have hsum : sumRigid ((name, t, v) :: rest.dropLast) =
          rigidSize t + sumRigid rest.dropLast := by simp [sumRigid]
      have hrt : rigidType t = true := hr (name, t, v) (List.mem_cons_self _ _)
      rcases le_or_lt data.length pos with hple | hple
      · refine ⟨"Invalid length of data to deserialize.", ?_⟩
        unfold deserializeGo
        rw [if_pos hple, if_neg (fun hcon => hre hcon.1)]
      · by_cases hstep : pos + rigidSize t ≤ data.length
        · obtain ⟨v1, hv1⟩ := @fieldStep_rigid_ok t dep
            (done ++ (name, t, v) :: rest) name v data pos hrt hstep
          have hrest : ∀ e ∈ rest, rigidType e.2.1 = true :=
            fun e he => hr e (by simp [he])
          obtain ⟨er, her⟩ := ih (done ++ [(name, t, v1)]) (pos + rigidSize t) hrest
            hstep (by omega)
          refine ⟨er, ?_⟩
          unfold deserializeGo
          rw [if_neg (by omega)]
          simp only [hv1]
          rw [if_neg (by omega), her]
        · obtain ⟨ef, hef⟩ := @fieldStep_rigid_error t dep
            (done ++ (name, t, v) :: rest) name v data pos hrt (by omega) (by omega)
          refine ⟨ef, ?_⟩
          unfold deserializeGo
          rw [if_neg (by omega)]
          simp only [hef]

theorem lenTargets_append (a b : List FieldSpec) :
    lenTargets (a ++ b) = lenTargets a ++ lenTargets b := by
  simp [lenTargets, List.filterMap_append]

theorem map_snd_lenPairs (l : List FieldSpec) :
    (lenPairs l).map (·.2) = lenTargets l := by
  induction l with
  | nil => rfl
  | cons f rest ih =>
    cases hf : f.type <;> simp [lenPairs, lenTargets, List.filterMap_cons, hf] <;>
      simpa [lenPairs, lenTargets] using ih

theorem lenPairs_keys_sub (l : List FieldSpec) :
    ∀ k ∈ (lenPairs l).map (·.1), k ∈ l.map FieldSpec.name := by
  induction l with
  | nil => simp [lenPairs]
  | cons f rest ih =>
    intro k hk
    cases hf : f.type <;> simp [lenPairs, List.filterMap_cons, hf] at hk <;>
      first
      | (rcases hk with hk | hk
         · simp [hk]
         · exact List.mem_cons_of_mem _ (ih k (by simpa [lenPairs] using hk)))
      | exact List.mem_cons_of_mem _ (ih k (by simpa [lenPairs] using hk))

theorem odInsert_append_of_not_mem {k : String} {v : α} {l : List (String × α)}
    (h : k ∉ l.map (·.1)) : odInsert k v l = l ++ [(k, v)] := by
  induction l with
  | nil => rfl
  | cons e rest ih =>
    rw [List.map_cons] at h
    have h1 : ¬ (e.1 = k) := fun hc => h (by simp [hc])
    have h2 : k ∉ rest.map (·.1) := fun hc => h (by simp [hc])
    rw [odInsert, if_neg h1, ih h2]
    rfl

theorem placementFrom_cons (all pre : List FieldSpec) (f : FieldSpec)
    (rest : List FieldSpec) :
    placementFrom all pre (f :: rest) ↔
      entryOk all (lenTargets pre) f ∧ placementFrom all (pre ++ [f]) rest := by
  constructor
  · intro h
    refine ⟨by simpa using h [] f rest rfl, ?_⟩
    intro mid g post hsplit
    have := h (f :: mid) g post (by rw [hsplit, List.cons_append])
    simpa [List.append_assoc] using this
  · rintro ⟨hf, hrest⟩
    intro mid g post hsplit
    cases mid with
    | nil =>
      injection hsplit with h1 h2
      subst h1
      simpa using hf
    | cons m mid2 =>
      injection hsplit with h1 h2
      subst h1
      have := hrest mid2 g post h2
      simpa [List.append_assoc] using this

theorem lenPairs_snoc_lenF {pre : List FieldSpec} {f : FieldSpec} {c : IntCodec}
    {tgt : String} (hft : f.type = .lenF c tgt) :
    lenPairs (pre ++ [f]) = lenPairs pre ++ [(f.name, tgt)] := by
  simp [lenPairs, List.filterMap_append, hft]

theorem lenPairs_snoc_other {pre : List FieldSpec} {f : FieldSpec}
    (hft : ∀ c tgt, f.type ≠ .lenF c tgt) :
    lenPairs (pre ++ [f]) = lenPairs pre := by
  cases h : f.type <;> simp [lenPairs, List.filterMap_append, h]
  case lenF c tgt => exact absurd h (hft c tgt)

theorem buildSchemaAux_ok_iff (all : List FieldSpec)
    (hnd : (all.map FieldSpec.name).Nodup) :
    ∀ (rest pre : List FieldSpec) (fields : Fields),
      all = pre ++ rest →
      ((∃ p, buildSchemaAux all rest fields (lenPairs pre) = .ok p) ↔
        placementFrom all pre rest) := by
  intro rest
  induction rest with
  | nil =>
    intro pre fields _
    constructor
    · intro _ mid g post hsplit
      exact absurd hsplit (by cases mid <;> simp)
    · intro _
      exact ⟨(fields, lenPairs pre), rfl⟩
  | cons f rest ih =>
    intro pre fields hall
    have hnotpre : f.name ∉ pre.map FieldSpec.name := by
      intro hmem
      rw [hall, List.map_append, List.map_cons] at hnd
      exact List.disjoint_of_nodup_append hnd hmem (List.mem_cons_self _ _)
    have hall2 : all = (pre ++ [f]) ++ rest := by
      rw [hall, List.append_assoc]
      rfl
    rw [placementFrom_cons]
    cases hft : f.type with
    | lenF c tgt =>
      cases hfd : f.default with
      | some d =>
        constructor
        · rintro ⟨p, hp⟩
          rw [buildSchemaAux] at hp
          simp only [hft, hfd] at hp
          cases hp
        · rintro ⟨⟨hlen, _⟩, _⟩
          have := hlen c tgt hft
          rw [hfd] at this
          cases this
      | none =>
        have hkey : f.name ∉ (lenPairs pre).map (·.1) :=
          fun hc => hnotpre (lenPairs_keys_sub pre _ hc)
        have hstep : buildSchemaAux all (f :: rest) fields (lenPairs pre) =
            buildSchemaAux all rest (odInsert f.name (f.type, f.default) fields)
              (lenPairs (pre ++ [f])) := by
          rw [buildSchemaAux]
          simp only [hft, hfd]
          rw [odInsert_append_of_not_mem hkey, lenPairs_snoc_lenF hft]
        have hrec := ih (pre ++ [f]) (odInsert f.name (f.type, f.default) fields) hall2
        rw [hstep]
        rw [hrec]
        constructor
        · intro hP
          refine ⟨⟨fun _ _ _ => hfd, fun hLL => ?_⟩, hP⟩
          rw [hft] at hLL
          cases hLL
        · rintro ⟨_, hP⟩
          exact hP
    | listF c =>
      have hne : ∀ c2 tgt2, f.type ≠ .lenF c2 tgt2 := by
        intro c2 tgt2 hcon
        rw [hft] at hcon
        cases hcon
      have hstep : buildSchemaAux all (f :: rest) fields (lenPairs pre) =
          (if ((lenPairs pre).map (·.2)).contains f.name ∨ all.getLast? = some f then
            buildSchemaAux all rest (odInsert f.name (f.type, f.default) fields)
              (lenPairs pre)
          else .error "Only the last field can have an undefined length") := by
        rw [buildSchemaAux]
        cases hfd : f.default <;> simp only [hft, hfd]
      have hcond : (((lenPairs pre).map (·.2)).contains f.name ∨
          all.getLast? = some f) ↔
          (f.name ∈ lenTargets pre ∨ all.getLast? = some f) := by
        rw [map_snd_lenPairs]
        simp
      have hrec := ih (pre ++ [f]) (odInsert f.name (f.type, f.default) fields) hall2
      rw [lenPairs_snoc_other hne] at hrec
      by_cases hc : f.name ∈ lenTargets pre ∨ all.getLast? = some f
      · rw [hstep, if_pos (hcond.mpr hc), hrec]
        constructor
        · intro hP
          exact ⟨⟨fun c2 tgt2 hcon => absurd hcon (hne c2 tgt2), fun _ => hc⟩, hP⟩
        · rintro ⟨_, hP⟩
          exact hP
      · rw [hstep, if_neg (fun hcon => hc (hcond.mp hcon))]
        constructor
        · rintro ⟨p, hp⟩
          cases hp
        · rintro ⟨⟨_, hLL⟩, _⟩
          exact absurd (hLL (by rw [hft]; rfl)) hc
    | bytesF o =>
      have hne : ∀ c2 tgt2, f.type ≠ .lenF c2 tgt2 := by
        intro c2 tgt2 hcon
        rw [hft] at hcon
        cases hcon
      have hstep : buildSchemaAux all (f :: rest) fields (lenPairs pre) =
          (if ((lenPairs pre).map (·.2)).contains f.name ∨ all.getLast? = some f then
            buildSchemaAux all rest (odInsert f.name (f.type, f.default) fields)
              (lenPairs pre)
          else .error "Only the last field can have an undefined length") := by
        rw [buildSchemaAux]
        cases hfd : f.default <;> simp only [hft, hfd]
      have hcond : (((lenPairs pre).map (·.2)).contains f.name ∨
          all.getLast? = some f) ↔
          (f.name ∈ lenTargets pre ∨ all.getLast? = some f) := by
        rw [map_snd_lenPairs]
        simp
      have hrec := ih (pre ++ [f]) (odInsert f.name (f.type, f.default) fields) hall2
      rw [lenPairs_snoc_other hne] at hrec
      by_cases hc : f.name ∈ lenTargets pre ∨ all.getLast? = some f
      · rw [hstep, if_pos (hcond.mpr hc), hrec]
        constructor
        · intro hP
          exact ⟨⟨fun c2 tgt2 hcon => absurd hcon (hne c2 tgt2), fun _ => hc⟩, hP⟩
        · rintro ⟨_, hP⟩
          exact hP
      · rw [hstep, if_neg (fun hcon => hc (hcond.mp hcon))]
        constructor
        · rintro ⟨p, hp⟩
          cases hp
        · rintro ⟨⟨_, hLL⟩, _⟩
          refine absurd (hLL ?_) hc
          rw [hft]
          cases o <;> rfl
    | intF c =>
      have hne : ∀ c2 tgt2, f.type ≠ .lenF c2 tgt2 := by
        intro c2 tgt2 hcon
        rw [hft] at hcon
        cases hcon
      have hstep : buildSchemaAux all (f :: rest) fields (lenPairs pre) =
          buildSchemaAux all rest (odInsert f.name (f.type, f.default) fields)
            (lenPairs pre) := by
        rw [buildSchemaAux]
        cases hfd : f.default <;> simp only [hft, hfd]
      have hrec := ih (pre ++ [f]) (odInsert f.name (f.type, f.default) fields) hall2
      rw [lenPairs_snoc_other hne] at hrec
      rw [hstep, hrec]
      constructor
      · intro hP
        refine ⟨⟨fun c2 tgt2 hcon => absurd hcon (hne c2 tgt2), fun hLL => ?_⟩, hP⟩
        rw [hft] at hLL
        cases hLL
      · rintro ⟨_, hP⟩
        exact hP
    | arrF c n =>
      have hne : ∀ c2 tgt2, f.type ≠ .lenF c2 tgt2 := by
        intro c2 tgt2 hcon
        rw [hft] at hcon
        cases hcon
      have hstep : buildSchemaAux all (f :: rest) fields (lenPairs pre) =
          buildSchemaAux all rest (odInsert f.name (f.type, f.default) fields)
            (lenPairs pre) := by
        rw [buildSchemaAux]
        cases hfd : f.default <;> simp only [hft, hfd]
      have hrec := ih (pre ++ [f]) (odInsert f.name (f.type, f.default) fields) hall2
      rw [lenPairs_snoc_other hne] at hrec
      rw [hstep, hrec]
      constructor
      · intro hP
        refine ⟨⟨fun c2 tgt2 hcon => absurd hcon (hne c2 tgt2), fun hLL => ?_⟩, hP⟩
        rw [hft] at hLL
        cases hLL
      · rintro ⟨_, hP⟩
        exact hP

theorem lookupStr_mem {l : List (String × String)} {k v : String}
    (h : lookupStr l k = some v) : (k, v) ∈ l := by
  induction l with
  | nil => cases h
  | cons e rest ih =>
    rw [lookupStr] at h
    split at h
    case isTrue heq =>
      injection h with h
      subst h
      subst heq
      exact List.mem_cons_self _ _
    case isFalse => exact List.mem_cons_of_mem _ (ih h)

theorem lookupStr_none_of_not_mem {l : List (String × String)} {k : String}
    (h : k ∉ l.map (·.1)) : lookupStr l k = none := by
  induction l with
  | nil => rfl
  | cons e rest ih =>
    rw [List.map_cons] at h
    rw [lookupStr, if_neg (fun hc => h (by simp [hc]))]
    exact ih (fun hc => h (List.mem_cons_of_mem _ hc))

theorem lookupStr_eq_of_mem_nodup {l : List (String × String)} {k v : String}
    (hnd : (l.map (·.1)).Nodup) (h : (k, v) ∈ l) : lookupStr l k = some v := by
  induction l with
  | nil => cases h
  | cons e rest ih =>
    rw [List.map_cons, List.nodup_cons] at hnd
    rcases List.mem_cons.mp h with h | h
    · subst h
      rw [lookupStr, if_pos rfl]
    · have hk : e.1 ≠ k := by
        intro hc
        exact hnd.1 (by rw [hc]; exact List.mem_map_of_mem _ h)
      rw [lookupStr, if_neg hk]
      exact ih hnd.2 h

theorem findDepend_mem {dep : Depends} {name K : String}
    (h : findDepend dep name = some K) : (K, name) ∈ dep := by
  induction dep with
  | nil => cases h
  | cons e rest ih =>
    rw [findDepend] at h
    split at h
    case isTrue heq =>
      injection h with h
      subst h
      subst heq
      exact List.mem_cons_self _ _
    case isFalse => exact List.mem_cons_of_mem _ (ih h)

theorem findDepend_append_left {a b : Depends} {name : String}
    (h : name ∈ a.map (·.2)) :
    ∃ K, findDepend (a ++ b) name = some K ∧ (K, name) ∈ a := by
  induction a with
  | nil => cases h
  | cons e rest ih =>
    by_cases he : e.2 = name
    · refine ⟨e.1, ?_, ?_⟩
      · rw [List.cons_append, findDepend, if_pos he]
      · rw [show (e.1, name) = e from by rw [← he]]
        exact List.mem_cons_self _ _
    · rw [List.map_cons] at h
      have h2 : name ∈ rest.map (·.2) := by
        rcases List.mem_cons.mp h with h | h
        · exact absurd h.symm he
        · exact h
      obtain ⟨K, hK, hKmem⟩ := ih h2
      refine ⟨K, ?_, List.mem_cons_of_mem _ hKmem⟩
      rw [List.cons_append, findDepend, if_neg he]
      exact hK

theorem regLookup_mem {l : Registry} {k : String} {p : FieldType × FieldValue}
    (h : regLookup l k = some p) : (k, p.1, p.2) ∈ l := by
  induction l with
  | nil => cases h
  | cons e rest ih =>
    obtain ⟨n, t, v⟩ := e
    rw [regLookup] at h
    split at h
    case isTrue heq =>
      injection h with h
      subst heq
      rw [← h]
      exact List.mem_cons_self _ _
    case isFalse => exact List.mem_cons_of_mem _ (ih h)

theorem regLookup_append_left {l1 l2 : Registry} {k : String}
    (h : k ∈ l1.map (fun e => e.1)) :
    regLookup (l1 ++ l2) k = regLookup l1 k := by
  induction l1 with
  | nil => cases h
  | cons e rest ih =>
    obtain ⟨n, t, v⟩ := e
    by_cases hn : n = k
    · rw [List.cons_append, regLookup, regLookup, if_pos hn, if_pos hn]
    · rw [List.cons_append, regLookup, regLookup, if_neg hn, if_neg hn]
      refine ih ?_
      rw [List.map_cons] at h
      rcases List.mem_cons.mp h with h | h
      · exact absurd h.symm hn
      · exact h

theorem regLookup_append_right {l1 l2 : Registry} {k : String}
    (h : k ∉ l1.map (fun e => e.1)) :
    regLookup (l1 ++ l2) k = regLookup l2 k := by
  induction l1 with
  | nil => rfl
  | cons e rest ih =>
    obtain ⟨n, t, v⟩ := e
    rw [List.map_cons] at h
    rw [List.cons_append, regLookup, if_neg (fun hc => h (by simp [hc]))]
    exact ih (fun hc => h (List.mem_cons_of_mem _ hc))

theorem reg_mem_name_unique {l : Registry} (hnd : (l.map (fun e => e.1)).Nodup)
    {k : String} {x y : FieldType × FieldValue}
    (hx : (k, x.1, x.2) ∈ l) (hy : (k, y.1, y.2) ∈ l) : x = y := by
  induction l with
  | nil => cases hx
  | cons e rest ih =>
    rw [List.map_cons, List.nodup_cons] at hnd
    rcases List.mem_cons.mp hx with hx1 | hx1 <;>
      rcases List.mem_cons.mp hy with hy1 | hy1
    · rw [← hx1] at hy1
      injection hy1 with _ h2
      obtain ⟨x1, x2⟩ := x
      obtain ⟨y1, y2⟩ := y
      injection h2 with h2 h3
      simp at h2 h3
      simp [h2, h3]
    · refine absurd ?_ hnd.1
      rw [show e.1 = k from by rw [← hx1]]
      exact List.mem_map_of_mem _ hy1
    · refine absurd ?_ hnd.1
      rw [show e.1 = k from by rw [← hy1]]
      exact List.mem_map_of_mem _ hx1
    · exact ih hnd.2 hx1 hy1

theorem chunksOf_cons_elim {reg : Registry} {dep : Depends}
    {e : String × FieldType × FieldValue} {rest : Registry} {cs : List Bytes}
    (h : chunksOf reg dep (e :: rest) = some cs) :
    ∃ ch cs2, fieldChunk reg dep e = some ch ∧
      chunksOf reg dep rest = some cs2 ∧ cs = ch :: cs2 := by
  rw [chunksOf] at h
  cases hch : fieldChunk reg dep e with
  | none => rw [hch] at h; cases h
  | some ch =>
    rw [hch] at h
    cases hcs : chunksOf reg dep rest with
    | none => rw [hcs] at h; cases h
    | some cs2 =>
      rw [hcs] at h
      injection h with h
      exact ⟨ch, cs2, rfl, rfl, h.symm⟩

theorem chunksOf_length {reg : Registry} {dep : Depends} :
    ∀ {l : Registry} {cs : List Bytes},
      chunksOf reg dep l = some cs → cs.length = l.length := by
  intro l
  induction l with
  | nil =>
    intro cs h
    rw [chunksOf] at h
    injection h with h
    rw [← h]
    rfl
  | cons e rest ih =>
    intro cs h
    obtain ⟨ch, cs2, _, hcs2, rfl⟩ := chunksOf_cons_elim h
    simp [ih hcs2]

theorem serializeGo_eq_chunksOf (reg : Registry) (dep : Depends) :
    ∀ (l : Registry),
      serializeGo reg dep l = (chunksOf reg dep l).map List.flatten := by
  intro l
  induction l with
  | nil => rfl
  | cons e rest ih =>
    rw [serializeGo_cons, ih, chunksOf]
    cases fieldChunk reg dep e <;> cases chunksOf reg dep rest <;> rfl

theorem serializeInts_eq_nil {c : IntCodec} {vs : List Int}
    (hs : 1 ≤ c.size) (h : serializeInts c vs = some []) : vs = [] := by
  have hlen := serializeInts_length h
  simp at hlen
  rcases hlen with h1 | h1
  · exact h1
  · omega

theorem sim_names {dep : Depends} {origReg : Registry} :
    ∀ {la lb : Registry}, List.Forall₂ (entrySim dep origReg) la lb →
      la.map (fun e => e.1) = lb.map (fun e => e.1) := by
  intro la
  induction la with
  | nil =>
    intro lb h
    cases h
    rfl
  | cons a resta ih =>
    intro lb h
    cases h with
    | cons hab hrest =>
      simp only [List.map_cons]
      rw [hab.1, ih hrest]

theorem regLookup_sim {dep : Depends} {origReg : Registry} :
    ∀ {la lb : Registry}, List.Forall₂ (entrySim dep origReg) la lb →
      ∀ nm, (regLookup la nm = none ∧ regLookup lb nm = none) ∨
        ∃ pa pb, regLookup la nm = some pa ∧ regLookup lb nm = some pb ∧
          entrySim dep origReg (nm, pa.1, pa.2) (nm, pb.1, pb.2) := by
  intro la
  induction la with
  | nil =>
    intro lb h nm
    cases h
    exact Or.inl ⟨rfl, rfl⟩
  | cons a resta ih =>
    intro lb h nm
    cases h with
    | cons hab hrest =>
      rename_i b restb
      obtain ⟨na, ta, va⟩ := a
      obtain ⟨nb, tb, vb⟩ := b
      have hnab : na = nb := hab.1
      by_cases hna : na = nm
      · right
        refine ⟨(ta, va), (tb, vb), ?_, ?_, ?_⟩
        · rw [regLookup, if_pos hna]
        · rw [regLookup, if_pos (by rw [← hnab]; exact hna)]
        · rw [show ((nm, ta, va) : String × FieldType × FieldValue) =
            (na, ta, va) from by rw [hna]] at *
          rw [show ((nm, tb, vb) : String × FieldType × FieldValue) =
            (nb, tb, vb) from by rw [← hnab, hna]]
          exact hab
      · have h1 : regLookup ((na, ta, va) :: resta) nm = regLookup resta nm := by
          rw [regLookup, if_neg hna]
        have h2 : regLookup ((nb, tb, vb) :: restb) nm = regLookup restb nm := by
          rw [regLookup, if_neg (by rw [← hnab]; exact hna)]
        rw [h1, h2]
        exact ih hrest nm

theorem depChunk_congr {t1 t2 : FieldType} {v1 v2 : FieldValue} {t : FieldType}
    (h : targetLength t2 v2 = targetLength t1 v1) :
    depChunk t (some (t2, v2)) = depChunk t (some (t1, v1)) := by
  show (match targetLength t2 v2 with
    | some cnt => countChunk t cnt
    | none => none) =
    (match targetLength t1 v1 with
    | some cnt => countChunk t cnt
    | none => none)
  rw [h]

theorem fieldChunk_sim {dep : Depends} {origReg newReg : Registry}
    (hreg : List.Forall₂ (entrySim dep origReg) origReg newReg)
    {a b : String × FieldType × FieldValue} (hab : entrySim dep origReg a b) :
    fieldChunk newReg dep b = fieldChunk origReg dep a := by
  obtain ⟨hn, ht, htl, hsf, _⟩ := hab
  unfold fieldChunk
  rw [← hn]
  cases hld : lookupStr dep a.1 with
  | none => exact hsf
  | some tgt =>
    show depChunk b.2.1 (regLookup newReg tgt) = depChunk a.2.1 (regLookup origReg tgt)
    rw [← ht]
    rcases regLookup_sim hreg tgt with ⟨h1, h2⟩ | ⟨⟨ta, va⟩, ⟨tb, vb⟩, h1, h2, hsim2⟩
    · rw [h1, h2]
    · rw [h1, h2]
      exact depChunk_congr hsim2.2.2.1

theorem serializeGo_sim {dep : Depends} {origReg newReg : Registry}
    (hreg : List.Forall₂ (entrySim dep origReg) origReg newReg) :
    ∀ {la lb : Registry}, List.Forall₂ (entrySim dep origReg) la lb →
      serializeGo newReg dep lb = serializeGo origReg dep la := by
  intro la
  induction la with
  | nil =>
    intro lb h
    cases h
    rfl
  | cons a resta ih =>
    intro lb h
    cases h with
    | cons hab hrest =>
      rw [serializeGo_cons, serializeGo_cons, fieldChunk_sim hreg hab, ih hrest]

theorem entrySim_same {dep : Depends} {origReg : Registry} (n : String)
    (t : FieldType) (v : FieldValue)
    (hne : ∀ c tgt, t ≠ FieldType.lenF c tgt) :
    entrySim dep origReg (n, t, v) (n, t, v) :=
  ⟨rfl, rfl, rfl, rfl, fun c tgt h => absurd h (hne c tgt)⟩

theorem exhaustionOk_tail {t : FieldType} {ts : List FieldType} {ch : Bytes}
    {cs : List Bytes} (h : exhaustionOk (t :: ts) (ch :: cs) = true) :
    exhaustionOk ts cs = true := by
  cases ts with
  | nil => rfl
  | cons t2 r =>
    have h2 : ((!ch.isEmpty || !cs.flatten.isEmpty) &&
        exhaustionOk (t2 :: r) cs) = true := h
    simp only [Bool.and_eq_true] at h2
    exact h2.2

theorem regLookup_isSome_of_mem_names {l : Registry} {k : String}
    (h : k ∈ l.map (fun e => e.1)) : ∃ p, regLookup l k = some p := by
  induction l with
  | nil => cases h
  | cons e rest ih =>
    obtain ⟨n, t, v⟩ := e
    by_cases hn : n = k
    · exact ⟨(t, v), by rw [regLookup, if_pos hn]⟩
    · rw [List.map_cons] at h
      have h2 : k ∈ rest.map (fun e => e.1) := by
        rcases List.mem_cons.mp h with h | h
        · exact absurd h.symm hn
        · exact h
      obtain ⟨p, hp⟩ := ih h2
      exact ⟨p, by rw [regLookup, if_neg hn]; exact hp⟩

theorem regLookup_self_of_split {origReg p q : Registry} {name : String}
    {t : FieldType} {v : FieldValue}
    (hnames : (origReg.map (fun e => e.1)).Nodup)
    (hsplit : origReg = p ++ (name, t, v) :: q) :
    regLookup origReg name = some (t, v) := by
  subst hsplit
  have hnp : name ∉ p.map (fun e => e.1) := by
    rw [List.map_append, List.map_cons] at hnames
    intro hc
    exact List.disjoint_of_nodup_append hnames hc (List.mem_cons_self _ _)
  rw [regLookup_append_right hnp, regLookup, if_pos rfl]

theorem forall2_append {α β : Type} {R : α → β → Prop} :
    ∀ {l1 : List α} {l2 : List β} {u1 : List α} {u2 : List β},
      List.Forall₂ R l1 l2 → List.Forall₂ R u1 u2 →
      List.Forall₂ R (l1 ++ u1) (l2 ++ u2) := by
  intro l1
  induction l1 with
  | nil =>
    intro l2 u1 u2 h hu
    cases h
    exact hu
  | cons a r ih =>
    intro l2 u1 u2 h hu
    cases h with
    | cons ha hr => exact List.Forall₂.cons ha (ih hr hu)

theorem lookupStr_none_of_not_lenF {dep : Depends} {origReg : Registry}
    (hnames : (origReg.map (fun e => e.1)).Nodup)
    (hV3 : ∀ K tgtn, (K, tgtn) ∈ dep →
      ∃ cK tgtK vK, (K, FieldType.lenF cK tgtK, vK) ∈ origReg)
    {name : String} {t : FieldType} {vOrig : FieldValue}
    (hmem : (name, t, vOrig) ∈ origReg)
    (hne : ∀ cc tt, t ≠ FieldType.lenF cc tt) :
    lookupStr dep name = none := by
  cases hls : lookupStr dep name with
  | none => rfl
  | some tgt =>
    obtain ⟨cK, tgtK, vK, hmemK⟩ := hV3 name tgt (lookupStr_mem hls)
    have h := reg_mem_name_unique hnames (x := (t, vOrig))
      (y := (FieldType.lenF cK tgtK, vK)) hmem hmemK
    exact absurd (congrArg Prod.fst h) (hne cK tgtK)

theorem arraySerialize_norm {c : IntCodec} {n : Nat} {vs : List Int} {ch : Bytes}
    (hch : (arraySerialize c n vs).1 = some ch) :
    ∃ W : List Int, serializeInts c W = some ch ∧ W.length = n ∧
      (arraySerialize c n W).1 = some ch := by
  have hWlen : ((if vs.length < n then
      vs ++ List.replicate (n - vs.length) 0 else vs).take n).length = n := by
    split_ifs with h
    · rw [List.length_take, List.length_append, List.length_replicate]
      omega
    · rw [List.length_take]
      omega
  refine ⟨(if vs.length < n then
      vs ++ List.replicate (n - vs.length) 0 else vs).take n, hch, hWlen, ?_⟩
  show serializeInts c ((if ((if vs.length < n then
      vs ++ List.replicate (n - vs.length) 0 else vs).take n).length < n then
      ((if vs.length < n then vs ++ List.replicate (n - vs.length) 0
        else vs).take n) ++
        List.replicate (n - ((if vs.length < n then
          vs ++ List.replicate (n - vs.length) 0 else vs).take n).length) 0
      else ((if vs.length < n then
        vs ++ List.replicate (n - vs.length) 0 else vs).take n)).take n) = some ch
  rw [hWlen, if_neg (lt_irrefl n),
    List.take_of_length_le (le_of_eq hWlen)]
  exact hch

theorem listFieldStep_of_chunk {c : IntCodec} {dep : Depends} {origReg : Registry}
    (hnames : (origReg.map (fun e => e.1)).Nodup)
    (hdepkeys : (dep.map (fun e => e.1)).Nodup)
    (hV3 : ∀ K tgtn, (K, tgtn) ∈ dep →
      ∃ cK tgtK vK, (K, FieldType.lenF cK tgtK, vK) ∈ origReg)
    {origDone newDone q : Registry} {name : String} {t : FieldType}
    {vOrig : FieldValue} {vs : List Int}
    (hsplit : origReg = origDone ++ (name, t, vOrig) :: q)
    (hsim : List.Forall₂ (entrySim dep origReg) origDone newDone)
    (hdepOK : ∀ K, findDepend dep name = some K → K ∈ origDone.map (fun e => e.1))
    (htlv : targetLength t vOrig = some vs.length)
    (hs : 1 ≤ c.size)
    {data ch post : Bytes} {pos : Nat}
    (hch : serializeInts c vs = some ch)
    (hpos : pos ≤ data.length)
    (hflat : data.drop pos = ch ++ post)
    (hlast : findDepend dep name = none → post = [])
    (full2 : Registry) :
    listFieldStep c dep (newDone ++ full2) name data pos =
      Except.ok (vs, pos + ch.length) := by
  cases hfd : findDepend dep name with
  | some K =>
    have hKmem : K ∈ origDone.map (fun e => e.1) := hdepOK K hfd
    have hKmem2 : K ∈ newDone.map (fun e => e.1) := by
      rw [← sim_names hsim]
      exact hKmem
    rcases regLookup_sim hsim K with ⟨hnone, _⟩ | ⟨pa, pb, hpa, hpb, hsimK⟩
    · obtain ⟨p, hp⟩ := regLookup_isSome_of_mem_names hKmem
      rw [hp] at hnone
      cases hnone
    · obtain ⟨pat, pav⟩ := pa
      obtain ⟨pbt, pbv⟩ := pb
      have hKdep : (K, name) ∈ dep := findDepend_mem hfd
      obtain ⟨cK, tgtK, vK, hKreg⟩ := hV3 K name hKdep
      have hpaReg : (K, pat, pav) ∈ origReg := by
        rw [hsplit]
        exact List.mem_append_left _ (regLookup_mem hpa)
      have hEq := reg_mem_name_unique hnames (x := (pat, pav))
        (y := (FieldType.lenF cK tgtK, vK)) hpaReg hKreg
      have hpat : pat = FieldType.lenF cK tgtK := congrArg Prod.fst hEq
      obtain ⟨-, -, -, -, hsim5⟩ := hsimK
      obtain ⟨tgtd, tt, tv, cnt, hls2, hrl2, htl2, hpbv⟩ := hsim5 cK tgtK hpat
      have hlsK : lookupStr dep K = some name :=
        lookupStr_eq_of_mem_nodup hdepkeys hKdep
      rw [hls2] at hlsK
      injection hlsK with htgtd
      rw [htgtd] at hrl2
      have hself : regLookup origReg name = some (t, vOrig) :=
        regLookup_self_of_split hnames hsplit
      rw [hrl2] at hself
      injection hself with hself
      have htt : tt = t := congrArg Prod.fst hself
      have htv : tv = vOrig := congrArg Prod.snd hself
      subst htt
      subst htv
      rw [htlv] at htl2
      injection htl2 with hcnt
      subst hcnt
      have hfull : regLookup (newDone ++ full2) K = some (pbt, pbv) := by
        rw [regLookup_append_left hKmem2]
        exact hpb
      have hpbv2 : pbv = FieldValue.lenV ((vs.length : Nat) : Int) := hpbv
      rw [hpbv2] at hfull
      unfold listFieldStep
      simp only [hfd, hfull]
      unfold listDeserialize
      rw [if_neg (by omega : ¬ ((vs.length : Nat) : Int) = -1)]
      exact deserializeInts_of_serializeInts hs hch hpos hflat
  | none =>
    have hpost : post = [] := hlast hfd
    subst hpost
    unfold listFieldStep
    simp only [hfd]
    unfold listDeserialize
    rw [if_pos rfl]
    have hlen : data.length - pos = ch.length := by
      have h := length_of_drop_append hpos hflat
      simpa using h
    have hchlen : ch.length = vs.length * c.size := serializeInts_length hch
    have hdiv : (data.length - pos) / c.size = vs.length := by
      rw [hlen, hchlen, Nat.mul_div_cancel _ (by omega : 0 < c.size)]
    rw [hdiv]
    exact deserializeInts_of_serializeInts hs hch hpos hflat

theorem fieldStep_of_chunk {dep : Depends} {origReg : Registry}
    (hnames : (origReg.map (fun e => e.1)).Nodup)
    (hdepkeys : (dep.map (fun e => e.1)).Nodup)
    (hV3 : ∀ K tgtn, (K, tgtn) ∈ dep →
      ∃ cK tgtK vK, (K, FieldType.lenF cK tgtK, vK) ∈ origReg)
    {origDone newDone q : Registry} {name : String} {t : FieldType}
    {vOrig : FieldValue}
    (hsplit : origReg = origDone ++ (name, t, vOrig) :: q)
    (hsim : List.Forall₂ (entrySim dep origReg) origDone newDone)
    (hdepOK : needsLength t = true → ∀ K, findDepend dep name = some K →
      K ∈ origDone.map (fun e => e.1))
    (hsz : fieldSizesOk t = true)
    {data ch post : Bytes} {pos : Nat}
    (hch : fieldChunk origReg dep (name, t, vOrig) = some ch)
    (hpos : pos ≤ data.length)
    (hflat : data.drop pos = ch ++ post)
    (hlast : needsLength t = true → findDepend dep name = none → post = [])
    (frest : Registry) :
    ∃ vNew, fieldStep dep (newDone ++ (name, t, freshValue t) :: frest) name t
        (freshValue t) data pos = Except.ok (vNew, pos + ch.length) ∧
      entrySim dep origReg (name, t, vOrig) (name, t, vNew) := by
  have hmem : (name, t, vOrig) ∈ origReg := by
    rw [hsplit]
    exact List.mem_append_right _ (List.mem_cons_self _ _)
  cases t with
  | intF c =>
    have hld : lookupStr dep name = none :=
      lookupStr_none_of_not_lenF hnames hV3 hmem
        (fun cc tt h => FieldType.noConfusion h)
    simp only [fieldChunk, hld] at hch
    cases vOrig with
    | lenV x => simp [serializeField] at hch
    | elemsV vs => simp [serializeField] at hch
    | intV x =>
      have henc : encodeInt c x = some ch := hch
      have hs : 1 ≤ c.size := by
        simp [fieldSizesOk] at hsz
        omega
      refine ⟨FieldValue.intV x, ?_, entrySim_same name _ _
        (fun cc tt h => FieldType.noConfusion h)⟩
      show (deserializeInt c data pos).map (fun p => (FieldValue.intV p.1, p.2)) = _
      rw [deserializeInt_at hs henc hpos hflat, encodeInt_length henc]
      rfl
  | lenF c tgtDecl =>
    have hs : 1 ≤ c.size := by
      simp [fieldSizesOk] at hsz
      omega
    cases hls : lookupStr dep name with
    | none =>
      simp only [fieldChunk, hls] at hch
      cases vOrig <;> simp [serializeField] at hch
    | some tgtd =>
      simp only [fieldChunk, hls] at hch
      cases hrl : regLookup origReg tgtd with
      | none =>
        rw [hrl] at hch
        simp [depChunk] at hch
      | some p =>
        obtain ⟨tt, tv⟩ := p
        rw [hrl] at hch
        cases htl : targetLength tt tv with
        | none =>
          simp only [depChunk, htl] at hch
          cases hch
        | some cnt =>
          simp only [depChunk, htl, countChunk] at hch
          refine ⟨FieldValue.lenV ((cnt : Nat) : Int), ?_, ?_⟩
          · show (deserializeInt c data pos).map
              (fun p => (FieldValue.lenV p.1, p.2)) = _
            rw [deserializeInt_at hs hch hpos hflat, encodeInt_length hch]
            rfl
          · have hnone1 : ∀ v, targetLength (FieldType.lenF c tgtDecl) v = none := by
              intro v
              cases v <;> rfl
            have hnone2 : ∀ v, serializeField (FieldType.lenF c tgtDecl) v = none := by
              intro v
              cases v <;> rfl
            refine ⟨rfl, rfl, ?_, ?_, ?_⟩
            · rw [hnone1, hnone1]
            · rw [hnone2, hnone2]
            · intro c' tgt' _
              exact ⟨tgtd, tt, tv, cnt, hls, hrl, htl, rfl⟩
  | arrF c n =>
    have hld : lookupStr dep name = none :=
      lookupStr_none_of_not_lenF hnames hV3 hmem
        (fun cc tt h => FieldType.noConfusion h)
    simp only [fieldChunk, hld] at hch
    cases vOrig with
    | intV x => simp [serializeField] at hch
    | lenV x => simp [serializeField] at hch
    | elemsV vs =>
      have hs : 1 ≤ c.size := by
        simp [fieldSizesOk] at hsz
        omega
      have hch2 : (arraySerialize c n vs).1 = some ch := hch
      obtain ⟨W, hser, hWlen, hWser⟩ := arraySerialize_norm hch2
      have hdes := deserializeInts_of_serializeInts hs hser hpos hflat
      rw [hWlen] at hdes
      refine ⟨FieldValue.elemsV W, ?_, ?_⟩
      · show ((arrayDeserialize c n (getElems (FieldValue.elemsV ([] : List Int)))
          data pos).map (fun p => (FieldValue.elemsV p.1, p.2))) = _
        unfold arrayDeserialize
        rw [hdes]
        show Except.ok (FieldValue.elemsV (W ++ List.drop n ([] : List Int)),
          pos + ch.length) = _
        rw [List.drop_nil, List.append_nil]
      · refine ⟨rfl, rfl, rfl, ?_, fun c' t' h => FieldType.noConfusion h⟩
        show (arraySerialize c n W).1 = (arraySerialize c n vs).1
        rw [hWser, hch2]
  | listF c =>
    have hld : lookupStr dep name = none :=
      lookupStr_none_of_not_lenF hnames hV3 hmem
        (fun cc tt h => FieldType.noConfusion h)
    simp only [fieldChunk, hld] at hch
    cases vOrig with
    | intV x => simp [serializeField] at hch
    | lenV x => simp [serializeField] at hch
    | elemsV vs =>
      have hs : 1 ≤ c.size := by
        simp [fieldSizesOk] at hsz
        omega
      have hch2 : serializeInts c vs = some ch := hch
      have hstep := listFieldStep_of_chunk hnames hdepkeys hV3 hsplit hsim
        (hdepOK rfl)
        (rfl : targetLength (FieldType.listF c) (FieldValue.elemsV vs) =
          some vs.length)
        hs hch2 hpos hflat (hlast rfl)
        ((name, FieldType.listF c, freshValue (FieldType.listF c)) :: frest)
      refine ⟨FieldValue.elemsV vs, ?_, entrySim_same name _ _
        (fun cc tt h => FieldType.noConfusion h)⟩
      show (listFieldStep c dep (newDone ++
        (name, FieldType.listF c, freshValue (FieldType.listF c)) :: frest)
        name data pos).map (fun p => (FieldValue.elemsV p.1, p.2)) = _
      rw [hstep]
      rfl
  | bytesF o =>
    cases o with
    | some n =>
      have hld : lookupStr dep name = none :=
        lookupStr_none_of_not_lenF hnames hV3 hmem
          (fun cc tt h => FieldType.noConfusion h)
      simp only [fieldChunk, hld] at hch
      cases vOrig with
      | intV x => simp [serializeField] at hch
      | lenV x => simp [serializeField] at hch
      | elemsV vs =>
        have hs : 1 ≤ byteCodec.size := by decide
        have hch2 : (arraySerialize byteCodec n vs).1 = some ch := hch
        obtain ⟨W, hser, hWlen, hWser⟩ := arraySerialize_norm hch2
        have hdes := deserializeInts_of_serializeInts hs hser hpos hflat
        rw [hWlen] at hdes
        refine ⟨FieldValue.elemsV W, ?_, ?_⟩
        · show ((arrayDeserialize byteCodec n
            (getElems (FieldValue.elemsV ([] : List Int)))
            data pos).map (fun p => (FieldValue.elemsV p.1, p.2))) = _
          unfold arrayDeserialize
          rw [hdes]
          show Except.ok (FieldValue.elemsV (W ++ List.drop n ([] : List Int)),
            pos + ch.length) = _
          rw [List.drop_nil, List.append_nil]
        · refine ⟨rfl, rfl, rfl, ?_, fun c' t' h => FieldType.noConfusion h⟩
          show (arraySerialize byteCodec n W).1 = (arraySerialize byteCodec n vs).1
          rw [hWser, hch2]
    | none =>
      have hld : lookupStr dep name = none :=
        lookupStr_none_of_not_lenF hnames hV3 hmem
          (fun cc tt h => FieldType.noConfusion h)
      simp only [fieldChunk, hld] at hch
      cases vOrig with
      | intV x => simp [serializeField] at hch
      | lenV x => simp [serializeField] at hch
      | elemsV vs =>
        have hs : 1 ≤ byteCodec.size := by decide
        have hch2 : serializeInts byteCodec vs = some ch := hch
        have hstep := listFieldStep_of_chunk hnames hdepkeys hV3 hsplit hsim
          (hdepOK rfl)
          (rfl : targetLength (FieldType.bytesF none) (FieldValue.elemsV vs) =
            some vs.length)
          hs hch2 hpos hflat (hlast rfl)
          ((name, FieldType.bytesF none, freshValue (FieldType.bytesF none)) :: frest)
        refine ⟨FieldValue.elemsV vs, ?_, entrySim_same name _ _
          (fun cc tt h => FieldType.noConfusion h)⟩
        show (listFieldStep byteCodec dep (newDone ++
          (name, FieldType.bytesF none, freshValue (FieldType.bytesF none)) :: frest)
          name data pos).map (fun p => (FieldValue.elemsV p.1, p.2)) = _
        rw [hstep]
        rfl

theorem roundtrip_go (dep : Depends) (origReg : Registry) (data : Bytes)
    (hnames : (origReg.map (fun e => e.1)).Nodup)
    (hdepkeys : (dep.map (fun e => e.1)).Nodup)
    (hV3 : ∀ K tgtn, (K, tgtn) ∈ dep →
      ∃ cK tgtK vK, (K, FieldType.lenF cK tgtK, vK) ∈ origReg)
    (hV2 : ∀ p name t v q, origReg = p ++ (name, t, v) :: q →
      needsLength t = true → ∀ K, findDepend dep name = some K →
      K ∈ p.map (fun e => e.1))
    (hV2x : ∀ p name t v q, origReg = p ++ (name, t, v) :: q →
      needsLength t = true → q ≠ [] → (findDepend dep name).isSome)
    (hsizes : ∀ e ∈ origReg, fieldSizesOk e.2.1 = true) :
    ∀ (origSuf origDone newDone : Registry) (pos : Nat) (cs : List Bytes),
      origReg = origDone ++ origSuf →
      List.Forall₂ (entrySim dep origReg) origDone newDone →
      chunksOf origReg dep origSuf = some cs →
      data.drop pos = cs.flatten →
      pos ≤ data.length →
      exhaustionOk (origSuf.map (fun e => e.2.1)) cs = true →
      ∃ newSuf,
        deserializeGo dep data newDone (freshOf origSuf) pos =
          Except.ok (newDone ++ newSuf, data.length) ∧
        List.Forall₂ (entrySim dep origReg) origSuf newSuf := by
  intro origSuf
  induction origSuf with
  | nil =>
    intro origDone newDone pos cs hsplit hsim hchunks hdrop hpos hexh
    have hcs : cs = [] := by
      rw [chunksOf] at hchunks
      injection hchunks with h
      exact h.symm
    subst hcs
    have hlen : data.length - pos = 0 := by
      have h := List.length_drop pos data
      rw [hdrop] at h
      simpa using h.symm
    have hpe : pos = data.length := by omega
    subst hpe
    refine ⟨[], ?_, List.Forall₂.nil⟩
    show deserializeGo dep data newDone [] data.length = _
    rw [deserializeGo, List.append_nil]
  | cons cur rest ih =>
    obtain ⟨name, t, vOrig⟩ := cur
    intro origDone newDone pos cs hsplit hsim hchunks hdrop hpos hexh
    obtain ⟨ch, cs2, hch, hcs2, rfl⟩ := chunksOf_cons_elim hchunks
    have hflat : data.drop pos = ch ++ cs2.flatten := by
      rw [hdrop, List.flatten_cons]
    have hlen := length_of_drop_append hpos hflat
    have hmem : (name, t, vOrig) ∈ origReg := by
      rw [hsplit]
      exact List.mem_append_right _ (List.mem_cons_self _ _)
    by_cases hA : data.length ≤ pos
    · have hzero : ch.length + cs2.flatten.length = 0 := by omega
      have hchE : ch = [] := List.eq_nil_of_length_eq_zero (by omega)
      have hfE : cs2.flatten = [] := List.eq_nil_of_length_eq_zero (by omega)
      have hrestE : rest = [] := by
        by_contra hne
        obtain ⟨r2, rest2, hr2⟩ := List.exists_cons_of_ne_nil hne
        subst hr2
        have hlen2 : cs2.length = (r2 :: rest2).length := chunksOf_length hcs2
        cases cs2 with
        | nil => simp at hlen2
        | cons c2 cs3 =>
          have hexh2 : ((!ch.isEmpty || !(c2 :: cs3).flatten.isEmpty) &&
              exhaustionOk ((r2 :: rest2).map (fun e => e.2.1)) (c2 :: cs3)) =
              true := hexh
          rw [hchE, hfE] at hexh2
          simp at hexh2
      subst hrestE
      have hcs2E : cs2 = [] := by
        have h := chunksOf_length hcs2
        exact List.eq_nil_of_length_eq_zero (by simpa using h)
      subst hcs2E
      have hLL : isListLike t = true := by
        have hexh1 : (isListLike t || !([ch].flatten.isEmpty)) = true := hexh
        rw [hchE] at hexh1
        simpa using hexh1
      have hpe : pos = data.length := by omega
      have hld : lookupStr dep name = none := by
        refine lookupStr_none_of_not_lenF hnames hV3 hmem ?_
        intro cc tt h
        rw [h] at hLL
        simp [isListLike] at hLL
      rw [hchE] at hch
      simp only [fieldChunk, hld] at hch
      have hsz := hsizes (name, t, vOrig) hmem
      refine ⟨[(name, t, freshValue t)], ?_, ?_⟩
      · show deserializeGo dep data newDone [(name, t, freshValue t)] pos = _
        unfold deserializeGo
        rw [if_pos hA, if_pos ⟨rfl, hLL⟩, hpe]
      · refine List.Forall₂.cons ?_ List.Forall₂.nil
        cases t with
        | intF c => simp [isListLike] at hLL
        | lenF c tgt => simp [isListLike] at hLL
        | arrF c n => simp [isListLike] at hLL
        | listF c =>
          cases vOrig with
          | intV x => simp [serializeField] at hch
          | lenV x => simp [serializeField] at hch
          | elemsV vs =>
            have hs : 1 ≤ c.size := by
              simp [fieldSizesOk] at hsz
              omega
            have hvs : vs = [] := serializeInts_eq_nil hs hch
            subst hvs
            exact entrySim_same name _ _ (fun cc tt h => FieldType.noConfusion h)
        | bytesF o =>
          cases o with
          | none =>
            cases vOrig with
            | intV x => simp [serializeField] at hch
            | lenV x => simp [serializeField] at hch
            | elemsV vs =>
              have hs : 1 ≤ byteCodec.size := by decide
              have hvs : vs = [] := serializeInts_eq_nil hs hch
              subst hvs
              exact entrySim_same name _ _ (fun cc tt h => FieldType.noConfusion h)
          | some n =>
            cases vOrig with
            | intV x => simp [serializeField] at hch
            | lenV x => simp [serializeField] at hch
            | elemsV vs =>
              have hch2 : (arraySerialize byteCodec n vs).1 = some [] := hch
              obtain ⟨W, hser, hWlen, _⟩ := arraySerialize_norm hch2
              have hW : W = [] :=
                serializeInts_eq_nil (by decide : 1 ≤ byteCodec.size) hser
              subst hW
              have hn : n = 0 := by simpa using hWlen.symm
              subst hn
              refine ⟨rfl, rfl, rfl, ?_, fun c' t' h => FieldType.noConfusion h⟩
              show (arraySerialize byteCodec 0 ([] : List Int)).1 =
                (arraySerialize byteCodec 0 vs).1
              rw [hch2]
              rfl
    · have hsz : fieldSizesOk t = true := hsizes (name, t, vOrig) hmem
      have hdepOK : needsLength t = true → ∀ K, findDepend dep name = some K →
          K ∈ origDone.map (fun e => e.1) :=
        fun hn K hK => hV2 origDone name t vOrig rest hsplit hn K hK
      have hlast : needsLength t = true → findDepend dep name = none →
          cs2.flatten = [] := by
        intro hn hfd
        have hrE : rest = [] := by
          by_contra hne
          have h := hV2x origDone name t vOrig rest hsplit hn hne
          rw [hfd] at h
          simp at h
        subst hrE
        rw [chunksOf] at hcs2
        injection hcs2 with h
        rw [← h]
        rfl
      obtain ⟨vNew, hstep, hsimcur⟩ := fieldStep_of_chunk hnames hdepkeys hV3
        hsplit hsim hdepOK hsz hch hpos hflat hlast (freshOf rest)
      have hple : pos + ch.length ≤ data.length := by omega
      have hdrop2 : data.drop (pos + ch.length) = cs2.flatten :=
        drop_of_drop_append hflat
      have hsplit2 : origReg = (origDone ++ [(name, t, vOrig)]) ++ rest := by
        rw [hsplit, List.append_cons]
      have hsim2 : List.Forall₂ (entrySim dep origReg)
          (origDone ++ [(name, t, vOrig)]) (newDone ++ [(name, t, vNew)]) :=
        forall2_append hsim (List.Forall₂.cons hsimcur List.Forall₂.nil)
      have hexh2 : exhaustionOk (rest.map (fun e => e.2.1)) cs2 = true :=
        exhaustionOk_tail hexh
      obtain ⟨newSuf2, hrec, hsimrest⟩ := ih (origDone ++ [(name, t, vOrig)])
        (newDone ++ [(name, t, vNew)]) (pos + ch.length) cs2 hsplit2 hsim2 hcs2
        hdrop2 hple hexh2
      refine ⟨(name, t, vNew) :: newSuf2, ?_,
        List.Forall₂.cons hsimcur hsimrest⟩
      show deserializeGo dep data newDone
        ((name, t, freshValue t) :: freshOf rest) pos = _
      unfold deserializeGo
      rw [if_neg hA]
      simp only [hstep]
      rw [if_neg (by omega : ¬ data.length < pos + ch.length), hrec,
        List.append_assoc]
      rfl

theorem findDepend_none_of_not_mem {l : Depends} {name : String}
    (h : name ∉ l.map (·.2)) : findDepend l name = none := by
  induction l with
  | nil => rfl
  | cons e rest ih =>
    rw [List.map_cons] at h
    rw [findDepend, if_neg (fun hc => h (by simp [hc]))]
    exact ih (fun hc => h (List.mem_cons_of_mem _ hc))

theorem lenPairs_keys_nodup : ∀ {l : List FieldSpec},
    (l.map FieldSpec.name).Nodup → ((lenPairs l).map (fun e => e.1)).Nodup := by
  intro l
  induction l with
  | nil =>
    intro _
    simp [lenPairs]
  | cons f rest ih =>
    intro hnd
    rw [List.map_cons, List.nodup_cons] at hnd
    cases hft : f.type with
    | lenF c tgt =>
      have hcons : lenPairs (f :: rest) = (f.name, tgt) :: lenPairs rest := by
        simp [lenPairs, List.filterMap_cons, hft]
      rw [hcons, List.map_cons, List.nodup_cons]
      exact ⟨fun hc => hnd.1 (lenPairs_keys_sub rest _ hc), ih hnd.2⟩
    | intF c =>
      have hcons : lenPairs (f :: rest) = lenPairs rest := by
        simp [lenPairs, List.filterMap_cons, hft]
      rw [hcons]
      exact ih hnd.2
    | arrF c n =>
      have hcons : lenPairs (f :: rest) = lenPairs rest := by
        simp [lenPairs, List.filterMap_cons, hft]
      rw [hcons]
      exact ih hnd.2
    | listF c =>
      have hcons : lenPairs (f :: rest) = lenPairs rest := by
        simp [lenPairs, List.filterMap_cons, hft]
      rw [hcons]
      exact ih hnd.2
    | bytesF o =>
      have hcons : lenPairs (f :: rest) = lenPairs rest := by
        simp [lenPairs, List.filterMap_cons, hft]
      rw [hcons]
      exact ih hnd.2

theorem mem_lenPairs {l : List FieldSpec} {K tgtn : String}
    (h : (K, tgtn) ∈ lenPairs l) :
    ∃ c f, f ∈ l ∧ f.name = K ∧ f.type = FieldType.lenF c tgtn := by
  rw [lenPairs, List.mem_filterMap] at h
  obtain ⟨f, hf, hm⟩ := h
  cases hft : f.type with
  | lenF c tgt =>
    rw [hft] at hm
    injection hm with hm
    have h1 : f.name = K := congrArg Prod.fst hm
    have h2 : tgt = tgtn := congrArg Prod.snd hm
    exact ⟨c, f, hf, h1, by rw [hft, h2]⟩
  | intF c => rw [hft] at hm; cases hm
  | arrF c n => rw [hft] at hm; cases hm
  | listF c => rw [hft] at hm; cases hm
  | bytesF o => rw [hft] at hm; cases hm

theorem map_eq_split {α β γ : Type} {g : α → γ} {h : β → γ} :
    ∀ {p : List α} {l1 : List α} {l2 : List β} {x : α} {q : List α},
      l1.map g = l2.map h → l1 = p ++ x :: q →
      ∃ p2 y q2, l2 = p2 ++ y :: q2 ∧ p2.map h = p.map g ∧ h y = g x ∧
        q2.map h = q.map g := by
  intro p
  induction p with
  | nil =>
    intro l1 l2 x q hmap hsplit
    subst hsplit
    cases l2 with
    | nil => cases hmap
    | cons y q2 =>
      rw [List.nil_append, List.map_cons, List.map_cons] at hmap
      injection hmap with h1 h2
      exact ⟨[], y, q2, rfl, rfl, h1.symm, h2.symm⟩
  | cons a p ih =>
    intro l1 l2 x q hmap hsplit
    subst hsplit
    cases l2 with
    | nil => cases hmap
    | cons b l2t =>
      rw [List.cons_append, List.map_cons, List.map_cons] at hmap
      injection hmap with h1 h2
      obtain ⟨p2, y, q2, hsp, hpm, hym, hqm⟩ := ih h2 rfl
      refine ⟨b :: p2, y, q2, by rw [hsp, List.cons_append], ?_, hym, hqm⟩
      rw [List.map_cons, List.map_cons, h1, hpm]

theorem getLast_mid_nil {p2 q2 : List FieldSpec} {fy : FieldSpec}
    (hnd : ((p2 ++ fy :: q2).map FieldSpec.name).Nodup)
    (hlast : (p2 ++ fy :: q2).getLast? = some fy) : q2 = [] := by
  by_contra hne
  have hq : (p2 ++ fy :: q2).getLast? = q2.getLast? := by
    rw [show p2 ++ fy :: q2 = (p2 ++ [fy]) ++ q2 from by
      rw [List.append_assoc]; rfl]
    exact List.getLast?_append_of_ne_nil _ hne
  rw [hq] at hlast
  have hmem : fy ∈ q2 := List.mem_of_getLast?_eq_some hlast
  rw [List.map_append, List.map_cons] at hnd
  have hnd2 : (fy.name :: q2.map FieldSpec.name).Nodup := hnd.of_append_right
  rw [List.nodup_cons] at hnd2
  exact hnd2.1 (List.mem_map_of_mem _ hmem)

theorem buildSchemaAux_ok_val (all : List FieldSpec)
    (hnd : (all.map FieldSpec.name).Nodup) :
    ∀ (rest pre : List FieldSpec) (fields : Fields) (p : Fields × Depends),
      all = pre ++ rest →
      fields.map (·.1) = pre.map FieldSpec.name →
      buildSchemaAux all rest fields (lenPairs pre) = .ok p →
      p.1 = fields ++ rest.map (fun f => (f.name, f.type, f.default)) ∧
      p.2 = lenPairs all := by
  intro rest
  induction rest with
  | nil =>
    intro pre fields p hall hkeys hok
    rw [buildSchemaAux] at hok
    injection hok with h
    subst h
    exact ⟨by simp, by rw [hall, List.append_nil]⟩
  | cons f rest ih =>
    intro pre fields p hall hkeys hok
    have hnotpre : f.name ∉ pre.map FieldSpec.name := by
      intro hmem
      rw [hall, List.map_append, List.map_cons] at hnd
      exact List.disjoint_of_nodup_append hnd hmem (List.mem_cons_self _ _)
    have hall2 : all = (pre ++ [f]) ++ rest := by
      rw [hall, List.append_assoc]
      rfl
    have hfieldkey : f.name ∉ fields.map (·.1) := by
      rw [hkeys]
      exact hnotpre
    have hkeys2 : (odInsert f.name (f.type, f.default) fields).map (·.1) =
        (pre ++ [f]).map FieldSpec.name := by
      rw [odInsert_append_of_not_mem hfieldkey, List.map_append,
        List.map_append, hkeys]
      rfl
    have hfin : p.1 = odInsert f.name (f.type, f.default) fields ++
          rest.map (fun g => (g.name, g.type, g.default)) →
        p.1 = fields ++ (f :: rest).map (fun g => (g.name, g.type, g.default)) := by
      intro h1
      rw [h1, odInsert_append_of_not_mem hfieldkey, List.append_assoc]
      rfl
    cases hft : f.type with
    | lenF c tgt =>
      cases hfd : f.default with
      | some d =>
        rw [buildSchemaAux] at hok
        simp only [hft, hfd] at hok
        cases hok
      | none =>
        have hkey : f.name ∉ (lenPairs pre).map (·.1) :=
          fun hc => hnotpre (lenPairs_keys_sub pre _ hc)
        have hstep : buildSchemaAux all (f :: rest) fields (lenPairs pre) =
            buildSchemaAux all rest (odInsert f.name (f.type, f.default) fields)
              (lenPairs (pre ++ [f])) := by
          rw [buildSchemaAux]
          simp only [hft, hfd]
          rw [odInsert_append_of_not_mem hkey, lenPairs_snoc_lenF hft]
        rw [hstep] at hok
        obtain ⟨h1, h2⟩ := ih (pre ++ [f]) _ p hall2 hkeys2 hok
        exact ⟨hfin h1, h2⟩
    | listF c =>
      have hne : ∀ c2 tgt2, f.type ≠ .lenF c2 tgt2 := by
        intro c2 tgt2 hcon
        rw [hft] at hcon
        cases hcon
      have hstep : buildSchemaAux all (f :: rest) fields (lenPairs pre) =
          (if ((lenPairs pre).map (·.2)).contains f.name ∨
              all.getLast? = some f then
            buildSchemaAux all rest (odInsert f.name (f.type, f.default) fields)
              (lenPairs pre)
          else .error "Only the last field can have an undefined length") := by
        rw [buildSchemaAux]
        cases hfd : f.default <;> simp only [hft, hfd]
      rw [hstep] at hok
      split at hok
      · rw [← lenPairs_snoc_other hne] at hok
        obtain ⟨h1, h2⟩ := ih (pre ++ [f]) _ p hall2 hkeys2 hok
        exact ⟨hfin h1, h2⟩
      · cases hok
    | bytesF o =>
      have hne : ∀ c2 tgt2, f.type ≠ .lenF c2 tgt2 := by
        intro c2 tgt2 hcon
        rw [hft] at hcon
        cases hcon
      have hstep : buildSchemaAux all (f :: rest) fields (lenPairs pre) =
          (if ((lenPairs pre).map (·.2)).contains f.name ∨
              all.getLast? = some f then
            buildSchemaAux all rest (odInsert f.name (f.type, f.default) fields)
              (lenPairs pre)
          else .error "Only the last field can have an undefined length") := by
        rw [buildSchemaAux]
        cases hfd : f.default <;> simp only [hft, hfd]
      rw [hstep] at hok
      split at hok
      · rw [← lenPairs_snoc_other hne] at hok
        obtain ⟨h1, h2⟩ := ih (pre ++ [f]) _ p hall2 hkeys2 hok
        exact ⟨hfin h1, h2⟩
      · cases hok
    | intF c =>
      have hne : ∀ c2 tgt2, f.type ≠ .lenF c2 tgt2 := by
        intro c2 tgt2 hcon
        rw [hft] at hcon
        cases hcon
      have hstep : buildSchemaAux all (f :: rest) fields (lenPairs pre) =
          buildSchemaAux all rest (odInsert f.name (f.type, f.default) fields)
            (lenPairs pre) := by
        rw [buildSchemaAux]
        cases hfd : f.default <;> simp only [hft, hfd]
      rw [hstep, ← lenPairs_snoc_other hne] at hok
      obtain ⟨h1, h2⟩ := ih (pre ++ [f]) _ p hall2 hkeys2 hok
      exact ⟨hfin h1, h2⟩
    | arrF c n =>
      have hne : ∀ c2 tgt2, f.type ≠ .lenF c2 tgt2 := by
        intro c2 tgt2 hcon
        rw [hft] at hcon
        cases hcon
      have hstep : buildSchemaAux all (f :: rest) fields (lenPairs pre) =
          buildSchemaAux all rest (odInsert f.name (f.type, f.default) fields)
            (lenPairs pre) := by
        rw [buildSchemaAux]
        cases hfd : f.default <;> simp only [hft, hfd]
      rw [hstep, ← lenPairs_snoc_other hne] at hok
      obtain ⟨h1, h2⟩ := ih (pre ++ [f]) _ p hall2 hkeys2 hok
      exact ⟨hfin h1, h2⟩

theorem needsLength_isListLike {t : FieldType} (ht : needsLength t = true) :
    isListLike t = true := by
  cases t with
  | listF c => rfl
  | bytesF o =>
    cases o with
    | none => rfl
    | some n => simp [needsLength] at ht
  | intF c => simp [needsLength] at ht
  | lenF c tg => simp [needsLength] at ht
  | arrF c n => simp [needsLength] at ht

theorem lenPairs_append (a b : List FieldSpec) :
    lenPairs (a ++ b) = lenPairs a ++ lenPairs b := by
  simp [lenPairs, List.filterMap_append]

/-! ### Claim theorems -/

/-- C2: for the schema `[header: u8(be), timestamp: u32(be), length:
LengthOf(u8(be), "data"), data: List(u8(be)), tail: List(u8(be))]`
(which validates), the instance with header 1, timestamp 12345,
data [1, 2, 3, 4] and tail [5, 6] serializes to exactly the bytes whose
uppercase hex encoding is `010000303904010203040506`. -/
theorem c2_example_packet_serializes :
    buildSchema oneSpecs = .ok (oneFields, oneDep) ∧
    serializePacket oneDep oneReg =
      some [0x01, 0x00, 0x00, 0x30, 0x39, 0x04, 0x01, 0x02, 0x03, 0x04, 0x05, 0x06] ∧
    packetStr oneDep oneReg = some "010000303904010203040506" :=
  ⟨rfl, rfl, rfl⟩

/-- C1 counterexample: under the validated schema `shortSpecs` (Length
for `d`, list `d`, trailing list `t`), the freshly constructed instance
(valid field values: `d` and `t` empty) serializes to the single byte
`00`, but deserializing those bytes into a freshly constructed instance
of the same schema raises `DeserializeError` instead of succeeding with
an equal instance: the buffer is exhausted when the non-final field `d`
is reached. -/
theorem c1_roundtrip_counterexample :
    buildSchema shortSpecs = .ok (shortFields, shortDep) ∧
    serializePacket shortDep (freshRegistry shortFields) = some [0x00] ∧
    deserializePacket shortDep (freshRegistry shortFields) [0x00] 0 =
      .error "Invalid length of data to deserialize." :=
  ⟨rfl, rfl, rfl⟩

/-- C3 counterexample: under the validated schema `tailSpecs` (scalar
`x`, trailing list `t`), deserializing the one-byte buffer `07` — which
is exhausted exactly where the trailing list begins — into an instance
whose trailing list holds the element 5 succeeds and returns position 1,
but the trailing list still holds its one element afterwards, not zero
elements as the claim states. -/
theorem c3_trailing_counterexample :
    buildSchema tailSpecs =
      .ok ([("x", .intF nxu8, none), ("t", .listF nxu8, none)], []) ∧
    deserializePacket [] tailReg [0x07] 0 =
      .ok ([("x", .intF nxu8, .intV 7), ("t", .listF nxu8, .elemsV [5])], 1) :=
  ⟨rfl, rfl⟩

/-- C4: schema construction does not reject a duplicated field name.
For the field list `(("testfield", nx_uint8), ("testfield", nx_uint64))`
— the exact input of the repository's
`test_superserdepa.FieldsTester.test_duplicate_field_name`, which
expects `PacketDefinitionError` — construction succeeds and the second
entry silently overwrites the first in `_fields`. -/
theorem c4_duplicate_name_accepted :
    buildSchema [⟨"testfield", .intF nxu8, none⟩, ⟨"testfield", .intF nxu64, none⟩] =
      .ok ([("testfield", .intF nxu64, none)], []) :=
  rfl

/-- C5 counterexample: a Byte Sequence constructed with a fixed length
(here 2) placed at a non-final, non-length-linked position does NOT
validate: the source checks `isinstance(field[1], ByteString)` without
regard to the fixed length and raises the illegal-placement error. -/
theorem c5_fixed_bytestring_rejected :
    buildSchema [⟨"b", .bytesF (some 2), none⟩, ⟨"x", .intF nxu8, none⟩] =
      .error "Only the last field can have an undefined length" :=
  rfl

/-- C3 (amended): when deserialization reaches the final field of the
registry with the buffer already exhausted (position at or past the
buffer length) and that field is a List or ByteString, it succeeds,
returning the current position, and leaves that trailing field's stored
value untouched — so in a freshly constructed instance the trailing
field holds no elements, while pre-existing elements survive the call. -/
theorem c3_trailing_field_untouched (dep : Depends) (data : Bytes) (done : Registry)
    (name : String) (t : FieldType) (v : FieldValue) (pos : Nat)
    (hlast : isListLike t = true) (hpos : data.length ≤ pos) :
    deserializeGo dep data done [(name, t, v)] pos = .ok (done ++ [(name, t, v)], pos) := by
  unfold deserializeGo
  rw [if_pos hpos, if_pos ⟨rfl, hlast⟩]

/-- Witness for C3 (amended): with the one-byte buffer `07` consumed by
the scalar field, the trailing list that held the element 5 still holds
exactly that element after the successful call. -/
theorem c3_trailing_field_untouched_witness :
    isListLike (.listF nxu8) = true ∧ ([7] : Bytes).length ≤ 1 ∧
    deserializeGo [] [7] [("x", .intF nxu8, .intV 7)]
      [("t", .listF nxu8, .elemsV [5])] 1 =
      .ok ([("x", .intF nxu8, .intV 7), ("t", .listF nxu8, .elemsV [5])], 1) :=
  ⟨rfl, by decide,
    c3_trailing_field_untouched [] [7] [("x", .intF nxu8, .intV 7)] "t"
      (.listF nxu8) (.elemsV [5]) 1 rfl (by decide)⟩

/-- C7: serializing a Fixed Array that currently holds k elements with
k < n (its configured length): the output is the k element encodings
followed by n − k zero-valued default element encodings, and the stored
contents after the call are exactly the original k elements. -/
theorem c7_array_pad_and_frame (c : IntCodec) (n : Nat) (vs : List Int) (bsK z : Bytes)
    (hk : vs.length < n) (hvs : serializeInts c vs = some bsK)
    (hz : encodeInt c 0 = some z) :
    (arraySerialize c n vs).1 = some (bsK ++ (List.replicate (n - vs.length) z).flatten) ∧
    (arraySerialize c n vs).2 = vs := by
  simp only [arraySerialize, hk, if_true]
  constructor
  · have hlen : (vs ++ List.replicate (n - vs.length) (0 : Int)).length = n := by
      simp; omega
    rw [List.take_of_length_le (le_of_eq hlen)]
    exact serializeInts_append hvs (serializeInts_replicate_zero _ hz)
  · exact List.take_left vs _

/-- Witness for C7: an `Array(nx_uint8, 5)` holding [1, 2, 3] serializes
to 01 02 03 00 00 and still holds [1, 2, 3] afterwards. -/
theorem c7_array_pad_and_frame_witness :
    ([1, 2, 3] : List Int).length < 5 ∧
    serializeInts nxu8 [1, 2, 3] = some [1, 2, 3] ∧
    encodeInt nxu8 0 = some [0] ∧
    (arraySerialize nxu8 5 [1, 2, 3]).1 =
      some ([1, 2, 3] ++ (List.replicate 2 [0]).flatten) ∧
    (arraySerialize nxu8 5 [1, 2, 3]).2 = [1, 2, 3] :=
  ⟨by decide, rfl, rfl,
    (c7_array_pad_and_frame nxu8 5 [1, 2, 3] [1, 2, 3] [0] (by decide) rfl rfl).1,
    (c7_array_pad_and_frame nxu8 5 [1, 2, 3] [1, 2, 3] [0] (by decide) rfl rfl).2⟩

/-- C9: a fixed-length-`n` Byte Sequence (its backing `Array(nx_uint8,
n)` starting empty) deserializing at a position with `n` bytes available
stores exactly those `n` buffer bytes and advances by `n`; its reported
value equals the spec formula `Σ b[i] << (8 × (n−1−i))` over those
bytes; and its string rendering is the uppercase hexadecimal of that
value zero-padded to exactly `2 n` characters. -/
theorem c9_bytestring_value_and_str (n : Nat) (data : Bytes) (pos : Nat)
    (hn : 1 ≤ n) (hle : pos + n ≤ data.length) (hdata : ∀ b ∈ data, b < 256) :
    ∃ slice : List Int,
      arrayDeserialize byteCodec n [] data pos = .ok (slice, pos + n) ∧
      slice = ((data.drop pos).take n).map (fun b : Nat => (b : Int)) ∧
      byteStringValue slice = specByteValue slice ∧
      byteStringStr (some n) slice = hexPad (2 * n) (byteStringValue slice).toNat ∧
      (byteStringStr (some n) slice).length = 2 * n := by
  refine ⟨((data.drop pos).take n).map (fun b : Nat => (b : Int)), ?_, rfl,
    byteStringValue_eq_spec _, rfl, ?_⟩
  · unfold arrayDeserialize
    rw [deserializeInts_byte hle]
    show Except.ok (((data.drop pos).take n).map (fun b : Nat => (b : Int)) ++
      List.drop n ([] : List Int), pos + n) = _
    simp
  · have hmem : ∀ b ∈ ((data.drop pos).take n).map (fun b : Nat => (b : Int)),
        0 ≤ b ∧ b < 256 := by
      intro b hb
      rw [List.mem_map] at hb
      obtain ⟨a, ha, rfl⟩ := hb
      have had : a ∈ data := List.mem_of_mem_drop (List.mem_of_mem_take ha)
      have := hdata a had
      constructor
      · positivity
      · exact_mod_cast this
    have hslen : (((data.drop pos).take n).map (fun b : Nat => (b : Int))).length = n := by
      rw [List.length_map, List.length_take, List.length_drop]
      omega
    obtain ⟨hv0, hvlt⟩ := byteStringValue_bound _ hmem
    rw [hslen] at hvlt
    have hvnat : (byteStringValue (((data.drop pos).take n).map
        (fun b : Nat => (b : Int)))).toNat < 16 ^ (2 * n) := by
      have h16 : (16 : Nat) ^ (2 * n) = 2 ^ (8 * n) := by
        rw [show (16 : Nat) = 2 ^ 4 from rfl, ← pow_mul]
        ring_nf
      rw [h16]
      omega
    have hdlen := hexDigits_length_le (k := 2 * n) (by omega) hvnat
    show (hexPad (2 * n) _).length = 2 * n
    exact hexPad_length hdlen

/-- Witness for C9: the fixed-length-6 Byte Sequence of the test-suite
packet `0305E8F02398A9` deserializes the bytes `05 E8 F0 23 98 A9` at
position 1, reports value `0x05E8F02398A9` and displays
`"05E8F02398A9"`. -/
theorem c9_bytestring_value_and_str_witness :
    (1 : Nat) ≤ 6 ∧ 1 + 6 ≤ ([3, 5, 232, 240, 35, 152, 169] : Bytes).length ∧
    (∀ b ∈ ([3, 5, 232, 240, 35, 152, 169] : Bytes), b < 256) ∧
    (∃ slice : List Int,
      arrayDeserialize byteCodec 6 [] [3, 5, 232, 240, 35, 152, 169] 1 =
        .ok (slice, 1 + 6) ∧
      slice = ((([3, 5, 232, 240, 35, 152, 169] : Bytes).drop 1).take 6).map
        (fun b : Nat => (b : Int)) ∧
      byteStringValue slice = specByteValue slice ∧
      byteStringStr (some 6) slice = hexPad (2 * 6) (byteStringValue slice).toNat ∧
      (byteStringStr (some 6) slice).length = 2 * 6) ∧
    byteStringValue [5, 232, 240, 35, 152, 169] = 0x05E8F02398A9 ∧
    byteStringStr (some 6) [5, 232, 240, 35, 152, 169] = "05E8F02398A9" :=
  ⟨by decide, by decide, by decide,
    c9_bytestring_value_and_str 6 [3, 5, 232, 240, 35, 152, 169] 1
      (by decide) (by decide) (by decide),
    by decide, rfl⟩

/-- C6: within a successful `serialize()`, the bytes a Length Link field
contributes decode to exactly the live element count of its target field
in the registry passed to the call — the registry value at the moment of
serialization, however the instance was mutated beforehand.  The output
splits as `bsPre ++ chunk ++ bsPost` with `bsPre` the bytes of the
fields before the Length Link and `chunk` the Length Link's own bytes. -/
theorem c6_length_link_live_count (dep : Depends) (pre post : Registry)
    (lname tgt : String) (c : IntCodec) (v : FieldValue)
    (tt : FieldType) (tv : FieldValue) (cnt : Nat) (bs : Bytes)
    (hs : 1 ≤ c.size)
    (hdep : lookupStr dep lname = some tgt)
    (hreg : regLookup (pre ++ (lname, .lenF c tgt, v) :: post) tgt = some (tt, tv))
    (hcnt : targetLength tt tv = some cnt)
    (hser : serializePacket dep (pre ++ (lname, .lenF c tgt, v) :: post) = some bs) :
    ∃ bsPre chunk bsPost,
      bs = bsPre ++ chunk ++ bsPost ∧
      serializeGo (pre ++ (lname, .lenF c tgt, v) :: post) dep pre = some bsPre ∧
      encodeInt c (cnt : Int) = some chunk ∧
      decodeInt c chunk = (cnt : Int) := by
  unfold serializePacket at hser
  rw [serializeGo_append] at hser
  have hchunk : fieldChunk (pre ++ (lname, .lenF c tgt, v) :: post) dep
      (lname, .lenF c tgt, v) = encodeInt c (cnt : Int) := by
    unfold fieldChunk depChunk countChunk
    simp only [hdep, hreg, hcnt]
  cases hpre : serializeGo (pre ++ (lname, .lenF c tgt, v) :: post) dep pre with
  | none => rw [hpre] at hser; simp at hser
  | some bsPre =>
    rw [hpre, serializeGo_cons, hchunk] at hser
    cases henc : encodeInt c (cnt : Int) with
    | none => rw [henc] at hser; simp at hser
    | some chunk =>
      rw [henc] at hser
      cases hpost : serializeGo (pre ++ (lname, .lenF c tgt, v) :: post) dep post with
      | none => rw [hpost] at hser; simp at hser
      | some bsPost =>
        rw [hpost] at hser
        simp at hser
        exact ⟨bsPre, chunk, bsPost, by rw [← hser, List.append_assoc], rfl, rfl,
          decodeInt_encodeInt hs henc⟩

/-- Witness for C6: in the serialized `OnePacket` instance with
data [1, 2, 3, 4], the Length field's byte `04` decodes to the live
count 4 of `data`. -/
theorem c6_length_link_live_count_witness :
    1 ≤ nxu8.size ∧
    lookupStr oneDep "length" = some "data" ∧
    regLookup oneReg "data" = some (.listF nxu8, .elemsV [1, 2, 3, 4]) ∧
    targetLength (.listF nxu8) (.elemsV [1, 2, 3, 4]) = some 4 ∧
    serializePacket oneDep oneReg =
      some [1, 0, 0, 48, 57, 4, 1, 2, 3, 4, 5, 6] ∧
    (∃ bsPre chunk bsPost,
      ([1, 0, 0, 48, 57, 4, 1, 2, 3, 4, 5, 6] : Bytes) =
        bsPre ++ chunk ++ bsPost ∧
      serializeGo oneReg oneDep
        [("header", .intF nxu8, .intV 1), ("timestamp", .intF nxu32, .intV 12345)] =
        some bsPre ∧
      encodeInt nxu8 ((4 : Nat) : Int) = some chunk ∧
      decodeInt nxu8 chunk = ((4 : Nat) : Int)) :=
  ⟨by decide, rfl, rfl, rfl, rfl,
    c6_length_link_live_count oneDep
      [("header", .intF nxu8, .intV 1), ("timestamp", .intF nxu32, .intV 12345)]
      [("data", .listF nxu8, .elemsV [1, 2, 3, 4]),
        ("tail", .listF nxu8, .elemsV [5, 6])]
      "length" "data" nxu8 (.lenV 0) (.listF nxu8) (.elemsV [1, 2, 3, 4]) 4
      [1, 0, 0, 48, 57, 4, 1, 2, 3, 4, 5, 6]
      (by decide) rfl rfl rfl rfl⟩

/-- C10: for a packet whose fields are all fixed-size (rigid: scalars,
Length links, fixed Arrays, fixed-length ByteStrings — in particular the
final field is not a Variable List or unbounded Byte Sequence),
deserializing a buffer strictly longer than the bytes the schema's
fields consume succeeds, returns exactly that consumed byte count —
which is strictly below the buffer length — and ignores the excess
trailing bytes. -/
theorem c10_excess_trailing_bytes_ignored (dep : Depends) (reg : Registry)
    (data : Bytes) (hr : ∀ e ∈ reg, rigidType e.2.1 = true)
    (hlt : sumRigid reg < data.length) :
    ∃ reg1, deserializePacket dep reg data 0 = .ok (reg1, sumRigid reg) ∧
      sumRigid reg < data.length := by
  obtain ⟨reg1, h1⟩ := deserializeGo_rigid_ok dep data reg [] 0 hr (by omega)
  exact ⟨reg1, by simpa using h1, hlt⟩

/-- Witness for C10: a rigid schema (u8 scalar, fixed Array of two u8,
fixed-length-1 ByteString, u8 Length link) consumes 5 bytes of a 7-byte
buffer and succeeds, ignoring the 2 excess bytes. -/
theorem c10_excess_trailing_bytes_ignored_witness :
    (∀ e ∈ ([("h", .intF nxu8, .intV 0), ("a", .arrF nxu8 2, .elemsV []),
        ("b", .bytesF (some 1), .elemsV []), ("l", .lenF nxu8 "a", .lenV 0)] :
        Registry), rigidType e.2.1 = true) ∧
    sumRigid [("h", .intF nxu8, .intV 0), ("a", .arrF nxu8 2, .elemsV []),
      ("b", .bytesF (some 1), .elemsV []), ("l", .lenF nxu8 "a", .lenV 0)] <
      ([9, 8, 7, 6, 5, 4, 3] : Bytes).length ∧
    (∃ reg1, deserializePacket [("l", "a")]
        [("h", .intF nxu8, .intV 0), ("a", .arrF nxu8 2, .elemsV []),
          ("b", .bytesF (some 1), .elemsV []), ("l", .lenF nxu8 "a", .lenV 0)]
        [9, 8, 7, 6, 5, 4, 3] 0 =
        .ok (reg1, sumRigid [("h", .intF nxu8, .intV 0), ("a", .arrF nxu8 2, .elemsV []),
          ("b", .bytesF (some 1), .elemsV []), ("l", .lenF nxu8 "a", .lenV 0)]) ∧
      sumRigid [("h", .intF nxu8, .intV 0), ("a", .arrF nxu8 2, .elemsV []),
        ("b", .bytesF (some 1), .elemsV []), ("l", .lenF nxu8 "a", .lenV 0)] <
        ([9, 8, 7, 6, 5, 4, 3] : Bytes).length) :=
  ⟨by decide, by decide,
    c10_excess_trailing_bytes_ignored [("l", "a")]
      [("h", .intF nxu8, .intV 0), ("a", .arrF nxu8 2, .elemsV []),
        ("b", .bytesF (some 1), .elemsV []), ("l", .lenF nxu8 "a", .lenV 0)]
      [9, 8, 7, 6, 5, 4, 3] (by decide) (by decide)⟩

/-- C8: for a packet of fixed-size (rigid) fields, a buffer that ends
before the fields at non-trailing positions can be fully read — fewer
bytes than the total size of all fields but the last — makes
deserialization raise a `DeserializeError`. -/
theorem c8_short_buffer_raises (dep : Depends) (reg : Registry) (data : Bytes)
    (hr : ∀ e ∈ reg, rigidType e.2.1 = true)
    (hshort : data.length < sumRigid reg.dropLast) :
    ∃ e, deserializePacket dep reg data 0 = .error e :=
  deserializeGo_rigid_error dep data reg [] 0 hr (by omega) (by simpa using hshort)

/-- Witness for C8: a big-endian u32 followed by a u8 deserializing a
3-byte buffer — too short for the non-trailing u32 — raises. -/
theorem c8_short_buffer_raises_witness :
    (∀ e ∈ ([("a", .intF nxu32, .intV 0), ("b", .intF nxu8, .intV 0)] : Registry),
      rigidType e.2.1 = true) ∧
    ([1, 2, 3] : Bytes).length <
      sumRigid ([("a", .intF nxu32, .intV 0), ("b", .intF nxu8, .intV 0)] :
        Registry).dropLast ∧
    (∃ e, deserializePacket [] [("a", .intF nxu32, .intV 0), ("b", .intF nxu8, .intV 0)]
      [1, 2, 3] 0 = .error e) :=
  ⟨by decide, by decide,
    c8_short_buffer_raises [] [("a", .intF nxu32, .intV 0), ("b", .intF nxu8, .intV 0)]
      [1, 2, 3] (by decide) (by decide)⟩

/-- C5 (amended): for a declared field list with distinct names, schema
validation succeeds exactly when no Length field carries a default and
every List field and EVERY ByteString field — whether or not it was
constructed with a fixed length — is either the last declared entry or
the named target of an earlier Length field.  So placement never rejects
scalar, Length or fixed-Array fields, but a fixed-length Byte Sequence
at a non-final, non-length-linked position IS rejected (see the
counterexample), contrary to the claim. -/
theorem c5_placement_characterization (specs : List FieldSpec)
    (hnd : (specs.map FieldSpec.name).Nodup) :
    (∃ p, buildSchema specs = .ok p) ↔
      ∀ pre f post, specs = pre ++ f :: post →
        (∀ c tgt, f.type = .lenF c tgt → f.default = none) ∧
        (isListLike f.type = true →
          f.name ∈ lenTargets pre ∨ specs.getLast? = some f) := by
  have h := buildSchemaAux_ok_iff specs hnd specs [] [] (by simp)
  rw [show buildSchema specs = buildSchemaAux specs specs [] (lenPairs []) from rfl, h]
  constructor
  · intro hp pre f post hsplit
    have := hp pre f post hsplit
    rw [entryOk] at this
    simpa using this
  · intro hp mid g post hsplit
    have := hp mid g post hsplit
    rw [entryOk]
    simpa using this

/-- Witness for C5 (amended): the characterization applied to the
`OnePacket` schema, whose names are distinct. -/
theorem c5_placement_characterization_witness :
    (oneSpecs.map FieldSpec.name).Nodup ∧
    ((∃ p, buildSchema oneSpecs = .ok p) ↔
      ∀ pre f post, oneSpecs = pre ++ f :: post →
        (∀ c tgt, f.type = .lenF c tgt → f.default = none) ∧
        (isListLike f.type = true →
          f.name ∈ lenTargets pre ∨ oneSpecs.getLast? = some f)) :=
  ⟨by decide, c5_placement_characterization oneSpecs (by decide)⟩

/-- C1: round-trip, as amended.  The claim as stated fails (see the
counterexample: a Length-linked list followed by a trailing list, both
empty, serializes to one byte whose deserialization raises).  Under the
conditions that actually guarantee it — a schema that validates with
distinct field names and no declared defaults, an instance whose fields
all use the library's codecs (element size at least one byte) and whose
serialized per-field chunks exhaust the buffer only at a final
`List`/`ByteString` field — deserializing `serialize(p)` into a freshly
constructed instance succeeds, consumes the whole buffer, and the
resulting instance reserializes to the same bytes, hence compares equal
to `p` under the source's `__eq__` (equality of serialized hex
renderings). -/
theorem c1_roundtrip_amended (specs : List FieldSpec) (F : Fields)
    (dep : Depends) (reg : Registry) (cs : List Bytes) (bs : Bytes)
    (hbuild : buildSchema specs = .ok (F, dep))
    (hnd : (specs.map FieldSpec.name).Nodup)
    (hnodef : ∀ f ∈ specs, f.default = none)
    (hmatch : reg.map (fun e => (e.1, e.2.1)) =
      specs.map (fun f => (f.name, f.type)))
    (hsizes : ∀ e ∈ reg, fieldSizesOk e.2.1 = true)
    (hchunks : chunksOf reg dep reg = some cs)
    (hexh : exhaustionOk (reg.map (fun e => e.2.1)) cs = true)
    (hser : serializePacket dep reg = some bs) :
    ∃ reg2, deserializePacket dep (freshRegistry F) bs 0 =
        .ok (reg2, bs.length) ∧
      serializePacket dep reg2 = some bs ∧ packetEq dep reg2 reg := by
  obtain ⟨hF, hdep⟩ := buildSchemaAux_ok_val specs hnd specs [] [] (F, dep)
    rfl rfl hbuild
  have hF2 : F = specs.map (fun f => (f.name, f.type, f.default)) := by
    have h : F = [] ++ specs.map (fun f => (f.name, f.type, f.default)) := hF
    rw [List.nil_append] at h
    exact h
  have hdep2 : dep = lenPairs specs := hdep
  have hregnames : reg.map (fun e => e.1) = specs.map FieldSpec.name := by
    have h := congrArg (List.map Prod.fst) hmatch
    rw [List.map_map, List.map_map] at h
    exact h
  have hnames : (reg.map (fun e => e.1)).Nodup := by
    rw [hregnames]
    exact hnd
  have hdepkeys : (dep.map (fun e => e.1)).Nodup := by
    rw [hdep2]
    exact lenPairs_keys_nodup hnd
  have hV3 : ∀ K tgtn, (K, tgtn) ∈ dep →
      ∃ cK tgtK vK, (K, FieldType.lenF cK tgtK, vK) ∈ reg := by
    intro K tgtn hmem
    rw [hdep2] at hmem
    obtain ⟨cK, f, hfmem, hfname, hftype⟩ := mem_lenPairs hmem
    have hf2 : (f.name, f.type) ∈ reg.map (fun e => (e.1, e.2.1)) := by
      rw [hmatch]
      exact List.mem_map_of_mem _ hfmem
    obtain ⟨e, hemem, hee⟩ := List.mem_map.mp hf2
    obtain ⟨e1, e2, e3⟩ := e
    refine ⟨cK, tgtn, e3, ?_⟩
    have h1 : e1 = K := by
      have h := congrArg Prod.fst hee
      rw [hfname] at h
      exact h
    have h2 : e2 = FieldType.lenF cK tgtn := by
      have h := congrArg Prod.snd hee
      rw [hftype] at h
      exact h
    rw [← h1, ← h2]
    exact hemem
  have hplace : placementFrom specs [] specs :=
    (buildSchemaAux_ok_iff specs hnd specs [] [] rfl).mp ⟨(F, dep), hbuild⟩
  have hVsplit : ∀ p name t v q, reg = p ++ (name, t, v) :: q →
      needsLength t = true →
      ((∀ K, findDepend dep name = some K → K ∈ p.map (fun e => e.1)) ∧
        (q ≠ [] → (findDepend dep name).isSome)) := by
    intro p name t v q hsplit hn
    obtain ⟨p2, fy, q2, hsp2, hpm, hym, hqm⟩ := map_eq_split hmatch hsplit
    have hyname : fy.name = name := congrArg Prod.fst hym
    have hytype : fy.type = t := congrArg Prod.snd hym
    obtain ⟨-, hLLok⟩ := hplace p2 fy q2 hsp2
    have hLL : isListLike fy.type = true := by
      rw [hytype]
      exact needsLength_isListLike hn
    have hdepsplit : dep = lenPairs p2 ++ lenPairs (fy :: q2) := by
      rw [hdep2, hsp2, lenPairs_append]
    have hp2names : p2.map FieldSpec.name = p.map (fun e => e.1) := by
      have hh := congrArg (List.map Prod.fst) hpm
      rw [List.map_map, List.map_map] at hh
      exact hh
    by_cases hmemT : fy.name ∈ lenTargets p2
    · have hmemT2 : name ∈ (lenPairs p2).map (·.2) := by
        rw [map_snd_lenPairs, ← hyname]
        exact hmemT
      obtain ⟨K0, hK0, hK0mem⟩ := findDepend_append_left
        (a := lenPairs p2) (b := lenPairs (fy :: q2)) hmemT2
      constructor
      · intro K hK
        rw [hdepsplit, hK0] at hK
        injection hK with hKK
        have hkeymem : K0 ∈ (lenPairs p2).map (fun e => e.1) :=
          List.mem_map_of_mem _ hK0mem
        have hsub := lenPairs_keys_sub p2 K0 hkeymem
        rw [hp2names] at hsub
        rw [← hKK]
        exact hsub
      · intro _
        rw [hdepsplit, hK0]
        rfl
    · have hlastT : specs.getLast? = some fy := (hLLok hLL).resolve_left hmemT
      have hq2 : q2 = [] := getLast_mid_nil
        (by rw [← hsp2]; exact hnd) (by rw [← hsp2]; exact hlastT)
      subst hq2
      have hqnil : q = [] := by
        cases q with
        | nil => rfl
        | cons a q2 => rw [List.map_cons] at hqm; cases hqm
      have hnone : findDepend dep name = none := by
        rw [hdepsplit]
        have hfy : lenPairs [fy] = ([] : Depends) := by
          cases hft : fy.type with
          | lenF c tg =>
            rw [hft] at hLL
            simp [isListLike] at hLL
          | intF c => simp [lenPairs, List.filterMap_cons, hft]
          | arrF c n => simp [lenPairs, List.filterMap_cons, hft]
          | listF c => simp [lenPairs, List.filterMap_cons, hft]
          | bytesF o => simp [lenPairs, List.filterMap_cons, hft]
        rw [hfy, List.append_nil]
        refine findDepend_none_of_not_mem ?_
        rw [map_snd_lenPairs, ← hyname]
        exact hmemT
      constructor
      · intro K hK
        rw [hnone] at hK
        cases hK
      · intro hqne
        exact absurd hqnil hqne
  have hbs : bs = cs.flatten := by
    have h2 := hser
    rw [serializePacket, serializeGo_eq_chunksOf reg dep reg, hchunks] at h2
    injection h2 with h2
    exact h2.symm
  have hfresh : freshRegistry F = freshOf reg := by
    rw [hF2, freshRegistry, freshOf, List.map_map]
    have hR : reg.map (fun e => (e.1, e.2.1, freshValue e.2.1)) =
        (reg.map (fun e => (e.1, e.2.1))).map
          (fun w => (w.1, w.2, freshValue w.2)) := by
      rw [List.map_map]
      rfl
    rw [hR, hmatch, List.map_map]
    refine List.map_congr_left ?_
    intro f hf
    show (f.name, f.type, match f.default with
      | some d => if truthy d then applyInitial f.type d else freshValue f.type
      | none => freshValue f.type) = (f.name, f.type, freshValue f.type)
    rw [hnodef f hf]
  obtain ⟨newSuf, hrun, hsimAll⟩ := roundtrip_go dep reg bs hnames hdepkeys hV3
    (fun p name t v q hs hn => (hVsplit p name t v q hs hn).1)
    (fun p name t v q hs hn hq => (hVsplit p name t v q hs hn).2 hq)
    hsizes reg [] [] 0 cs rfl List.Forall₂.nil hchunks
    (by rw [List.drop_zero, hbs]) (Nat.zero_le _) hexh
  refine ⟨newSuf, ?_, ?_, ?_⟩
  · rw [deserializePacket, hfresh]
    exact hrun
  · have h := serializeGo_sim hsimAll hsimAll
    rw [serializePacket, h]
    exact hser
  · have h := serializeGo_sim hsimAll hsimAll
    show (serializeGo newSuf dep newSuf).map hexOfBytes =
      (serializeGo reg dep reg).map hexOfBytes
    rw [h]

/-- Witness for C1 (amended): the `OnePacket` instance with header 1,
timestamp 12345, data [1,2,3,4], tail [5,6].  All hypotheses hold by
computation, and the round-trip through the twelve serialized bytes
succeeds. -/
theorem c1_roundtrip_amended_witness :
    ∃ reg2, deserializePacket oneDep (freshRegistry oneFields)
        [1, 0, 0, 48, 57, 4, 1, 2, 3, 4, 5, 6] 0 =
        .ok (reg2, 12) ∧
      serializePacket oneDep reg2 =
        some [1, 0, 0, 48, 57, 4, 1, 2, 3, 4, 5, 6] ∧
      packetEq oneDep reg2 oneReg :=
  c1_roundtrip_amended oneSpecs oneFields oneDep oneReg
    [[1], [0, 0, 48, 57], [4], [1, 2, 3, 4], [5, 6]]
    [1, 0, 0, 48, 57, 4, 1, 2, 3, 4, 5, 6]
    rfl (by decide) (by decide) rfl (by decide) rfl rfl rfl

end Serdepa
